import Mathlib

/-
Verification development for the PaPILO fix-and-propagate / volume-algorithm
heuristic engine (files under src/src/fix, src/src/StartMipComp.cpp).

Real numbers (the C++ template parameter REAL, instantiated with double) are
modelled as exact rationals; the tolerance-based comparison kernel Num is kept
as an explicit parameter, so every epsilon-guarded branch of the source is
represented faithfully.  Components of the repository that the analysed code
calls but whose sources are not part of the snapshot (papilo/misc/Num.hpp,
fix/VectorMultiplication.hpp, papilo/core/ProbingView.hpp) are modelled from
the specification; each such definition carries a doc comment starting with
"Modelled from the spec:".
-/

namespace PapiloFix

/-- Rounding a rational to the nearest integer, as a rational. -/
def qround (a : ℚ) : ℚ := (round a : ℤ)

/-- Modelled from the spec: the tolerance-based numeric kernel of
papilo/misc/Num.hpp (not in the snapshot).  Section 4.1 of the spec:
"Tolerance-based predicates isZero, isEq, isLT, isLE, isGT, isGE, isIntegral,
round, feasFloor, feasCeil, parameterised by feasibility and optimality
epsilons."  The field eps is the comparison epsilon, feastol the feasibility
tolerance. -/
structure Num where
  eps : ℚ
  feastol : ℚ

/-- Modelled from the spec: tolerance-based zero test. -/
def Num.isZero (n : Num) (a : ℚ) : Prop := |a| ≤ n.eps

/-- Modelled from the spec: tolerance-based equality. -/
def Num.isEq (n : Num) (a b : ℚ) : Prop := |a - b| ≤ n.eps

/-- Modelled from the spec: tolerance-based strict less-than. -/
def Num.isLT (n : Num) (a b : ℚ) : Prop := a < b - n.eps

/-- Modelled from the spec: tolerance-based strict greater-than. -/
def Num.isGT (n : Num) (a b : ℚ) : Prop := a > b + n.eps

/-- Modelled from the spec: tolerance-based less-or-equal. -/
def Num.isLE (n : Num) (a b : ℚ) : Prop := a ≤ b + n.eps

/-- Modelled from the spec: tolerance-based greater-or-equal. -/
def Num.isGE (n : Num) (a b : ℚ) : Prop := a ≥ b - n.eps

/-- Modelled from the spec: rounding to the nearest integer. -/
def Num.round (_ : Num) (a : ℚ) : ℚ := qround a

/-- Modelled from the spec: integrality test of the kernel. -/
def Num.isIntegral (n : Num) (a : ℚ) : Prop := n.isEq a (n.round a)

/-- Modelled from the spec: feasibility-tolerant floor. -/
def Num.feasFloor (n : Num) (a : ℚ) : ℚ := (⌊a + n.feastol⌋ : ℤ)

/-- Modelled from the spec: feasibility-tolerant ceiling. -/
def Num.feasCeil (n : Num) (a : ℚ) : ℚ := (⌈a - n.feastol⌉ : ℤ)

instance (n : Num) (a : ℚ) : Decidable (n.isZero a) := by
  unfold Num.isZero; infer_instance

instance (n : Num) (a b : ℚ) : Decidable (n.isEq a b) := by
  unfold Num.isEq; infer_instance

instance (n : Num) (a b : ℚ) : Decidable (n.isLT a b) := by
  unfold Num.isLT; infer_instance

instance (n : Num) (a b : ℚ) : Decidable (n.isGT a b) := by
  unfold Num.isGT; infer_instance

instance (n : Num) (a b : ℚ) : Decidable (n.isLE a b) := by
  unfold Num.isLE; infer_instance

instance (n : Num) (a b : ℚ) : Decidable (n.isGE a b) := by
  unfold Num.isGE; infer_instance

instance (n : Num) (a : ℚ) : Decidable (n.isIntegral a) := by
  unfold Num.isIntegral; infer_instance

/-- Sum of a list of rationals; models the StableSum accumulator of the
source: in exact arithmetic compensated summation is plain summation (spec
section 4.1 describes it as bounding floating-point cancellation error only). -/
def stableSum (xs : List ℚ) : ℚ := xs.sum

/-! ## Sparse linear algebra

Modelled from the spec, section 4.2 (fix/VectorMultiplication.hpp is not in
the snapshot).  A sparse row is a list of (column index, coefficient) pairs;
dense vectors are lists of rationals indexed with getD, so that out-of-range
reads yield 0. -/

/-- A sparse matrix row: (column index, value) pairs. -/
abbrev SparseRow := List (ℕ × ℚ)

/-- Value of a dense vector at an index (0 outside the range). -/
def vecAt (v : List ℚ) (i : ℕ) : ℚ := v.getD i 0

/-- Modelled from the spec: the dot product of a sparse row with a dense
vector, i.e. the contribution of one matrix row to A x. -/
def rowDot (r : SparseRow) (x : List ℚ) : ℚ :=
  stableSum (r.map (fun e => e.2 * vecAt x e.1))

/-- Coefficient of a sparse row at a given column (summing duplicates). -/
def rowCoeff (r : SparseRow) (j : ℕ) : ℚ :=
  stableSum ((r.filter (fun e => e.1 = j)).map (fun e => e.2))

/-- Modelled from the spec: b_minus_Ax(A, x, b) = b - A x, one entry per row. -/
def bMinusAx (rows : List SparseRow) (x b : List ℚ) : List ℚ :=
  (List.range rows.length).map (fun i => vecAt b i - rowDot (rows.getD i []) x)

/-- Modelled from the spec: b_minus_xA(A, pi, c) = c - pi^T A, one entry per
column. -/
def bMinusxA (rows : List SparseRow) (pi c : List ℚ) : List ℚ :=
  (List.range c.length).map (fun j =>
    vecAt c j - stableSum ((List.range rows.length).map
      (fun i => vecAt pi i * rowCoeff (rows.getD i []) j)))

/-- Modelled from the spec: b_plus_sx(b, s, x) = b + s x pointwise. -/
def bPlusSx (b : List ℚ) (s : ℚ) (x : List ℚ) : List ℚ :=
  (List.range b.length).map (fun i => vecAt b i + s * vecAt x i)

/-- Modelled from the spec: qb_plus_sx(q, b, s, x) = q b + s x pointwise. -/
def qbPlusSx (q : ℚ) (b : List ℚ) (s : ℚ) (x : List ℚ) : List ℚ :=
  (List.range b.length).map (fun i => q * vecAt b i + s * vecAt x i)

/-- Modelled from the spec: dot product of two dense vectors. -/
def multi (u v : List ℚ) : ℚ :=
  stableSum ((List.range (Nat.min u.length v.length)).map
    (fun i => vecAt u i * vecAt v i))

/-- Modelled from the spec: the L1 norm of a dense vector. -/
def l1Norm (v : List ℚ) : ℚ := stableSum (v.map (fun a => |a|))

/-- Square of the L2 norm of a dense vector; the source only ever uses
pow(l2_norm(v), 2), which in exact arithmetic is this sum of squares. -/
def l2NormSq (v : List ℚ) : ℚ := stableSum (v.map (fun a => a * a))

/-- Sanity check mirroring the residual expectation of
test/fix/VectorMultiplicationTest.cpp: rows (1 c1 + 2 c2; 3 c2 + 4 c3),
scalar (2,3,3), subtract (1,2) gives residual (Ax - b) = (7, 19); the
b_minus_Ax orientation gives the negation. -/
theorem vector_multiplication_check :
    bMinusAx [[(0, 1), (1, 2)], [(1, 3), (2, 4)]] [2, 3, 3] [1, 2] =
      [-7, -19] := by
  norm_num [bMinusAx, rowDot, vecAt, stableSum, List.range_succ]

/-! ## The Volume Algorithm (src/src/fix/VolumeAlgorithm.hpp)

Variable domains and the constraint matrix carry exactly the data the volume
algorithm reads: bounds with infinity flags, integrality flags, and the
per-row RowFlag::kRhsInf flag distinguishing `>=`-rows from equations. -/

/-- Flag of a list of booleans at an index (false outside the range). -/
def flagAt (fs : List Bool) (i : ℕ) : Bool := fs.getD i false

/-- Variable domains as read by VolumeAlgorithm.hpp: lower and upper bound
value arrays plus ColFlag::kLbInf, ColFlag::kUbInf and ColFlag::kIntegral. -/
structure VolDomains where
  lbs : List ℚ
  ubs : List ℚ
  lbInf : List Bool
  ubInf : List Bool
  integral : List Bool

/-- The constraint matrix as read by VolumeAlgorithm.hpp: row-major sparse
rows plus the RowFlag::kRhsInf flag per row (true exactly for rows of the
form a x >= lhs). -/
structure VolMatrix where
  rows : List SparseRow
  rhsInf : List Bool

/-- The per-variable loop of create_problem_6_and_solve_it
(VolumeAlgorithm.hpp lines 291-313).  The accumulator is the StableSum
obj_value, the list argument the remaining variable indices, and sol the
solution vector written in place; the early returns for an infinite chosen
side on a variable with nonzero reduced cost are modelled by the Option
result none (the C++ returns std::numeric_limits of REAL min there), with
sol keeping whatever was written before the early return. -/
def solve6Loop (n : Num) (dom : VolDomains) (u : List ℚ) :
    List ℕ → List ℚ → ℚ → Option ℚ × List ℚ
  | [], sol, acc => (some acc, sol)
  | i :: rest, sol, acc =>
    if n.isZero (vecAt u i) then
      solve6Loop n dom u rest (sol.set i (vecAt dom.lbs i)) acc
    else if n.isGT (vecAt u i) 0 then
      if flagAt dom.lbInf i then (none, sol)
      else
        solve6Loop n dom u rest (sol.set i (vecAt dom.lbs i))
          (acc + vecAt u i * vecAt dom.lbs i)
    else
      if flagAt dom.ubInf i then (none, sol)
      else
        solve6Loop n dom u rest (sol.set i (vecAt dom.ubs i))
          (acc + vecAt u i * vecAt dom.ubs i)

/-- create_problem_6_and_solve_it (VolumeAlgorithm.hpp lines 279-317): the
reduced costs u = c - pi^T A are formed, obj_value starts at pi . b, and the
per-variable loop picks a box side per variable.  The first component is
some objective value, or none for the degenerate early return. -/
def solve6 (n : Num) (c : List ℚ) (A : VolMatrix) (b : List ℚ)
    (dom : VolDomains) (pi : List ℚ) (sol : List ℚ) : Option ℚ × List ℚ :=
  solve6Loop n dom (bMinusxA A.rows pi c) (List.range c.length) sol
    (multi b pi)

/-- The claim's degeneracy condition on variable j, stated with the spec's
sign convention: reduced cost strictly positive with infinite lower bound,
or strictly negative with infinite upper bound. -/
def degenerateAt (n : Num) (dom : VolDomains) (u : List ℚ) (j : ℕ) : Prop :=
  (n.isGT (vecAt u j) 0 ∧ flagAt dom.lbInf j) ∨
    (n.isLT (vecAt u j) 0 ∧ flagAt dom.ubInf j)

theorem solve6Loop_length (n : Num) (dom : VolDomains) (u : List ℚ)
    (L : List ℕ) (sol : List ℚ) (acc : ℚ) :
    (solve6Loop n dom u L sol acc).2.length = sol.length := by
  induction L generalizing sol acc with
  | nil => simp [solve6Loop]
  | cons i rest ih =>
    simp only [solve6Loop]
    split
    · rw [ih]; simp
    · split
      · split
        · rfl
        · rw [ih]; simp
      · split
        · rfl
        · rw [ih]; simp

theorem solve6Loop_notMem (n : Num) (dom : VolDomains) (u : List ℚ)
    (L : List ℕ) (sol : List ℚ) (acc : ℚ) (j : ℕ) (hj : j ∉ L) :
    vecAt (solve6Loop n dom u L sol acc).2 j = vecAt sol j := by
  induction L generalizing sol acc with
  | nil => simp [solve6Loop]
  | cons i rest ih =>
    have hji : j ≠ i := fun h => hj (by simp [h])
    have hjr : j ∉ rest := fun h => hj (by simp [h])
    simp only [solve6Loop]
    split
    · rw [ih _ _ hjr]; simp [vecAt, List.getElem?_set_ne (Ne.symm hji)]
    · split
      · split
        · rfl
        · rw [ih _ _ hjr]; simp [vecAt, List.getElem?_set_ne (Ne.symm hji)]
      · split
        · rfl
        · rw [ih _ _ hjr]; simp [vecAt, List.getElem?_set_ne (Ne.symm hji)]

theorem Num.not_isGT_zero_of_isZero {n : Num} {a : ℚ} (heps : 0 ≤ n.eps)
    (h : n.isZero a) : ¬ n.isGT a 0 := by
  simp only [Num.isZero, abs_le, Num.isGT] at *
  intro hc; linarith [h.2]

theorem Num.not_isLT_zero_of_isZero {n : Num} {a : ℚ} (heps : 0 ≤ n.eps)
    (h : n.isZero a) : ¬ n.isLT a 0 := by
  simp only [Num.isZero, abs_le, Num.isLT] at *
  intro hc; linarith [h.1]

theorem Num.not_isLT_zero_of_isGT {n : Num} {a : ℚ} (heps : 0 ≤ n.eps)
    (h : n.isGT a 0) : ¬ n.isLT a 0 := by
  simp only [Num.isGT, Num.isLT] at *
  intro hc; linarith

theorem Num.isLT_zero_of_not {n : Num} {a : ℚ} (heps : 0 ≤ n.eps)
    (h1 : ¬ n.isZero a) (h2 : ¬ n.isGT a 0) : n.isLT a 0 := by
  simp only [Num.isZero, abs_le, Num.isGT, not_and_or, not_le, not_lt,
    Num.isLT] at *
  rcases h1 with h | h
  · linarith
  · linarith

theorem solve6Loop_some_mem (n : Num) (heps : 0 ≤ n.eps) (dom : VolDomains)
    (u : List ℚ) (L : List ℕ) (sol : List ℚ) (acc : ℚ) (hnd : L.Nodup)
    (hlen : ∀ i ∈ L, i < sol.length)
    (hz : (solve6Loop n dom u L sol acc).1 ≠ none) :
    ∀ j ∈ L,
      (n.isZero (vecAt u j) →
        vecAt (solve6Loop n dom u L sol acc).2 j = vecAt dom.lbs j) ∧
      (n.isGT (vecAt u j) 0 →
        vecAt (solve6Loop n dom u L sol acc).2 j = vecAt dom.lbs j) ∧
      (n.isLT (vecAt u j) 0 →
        vecAt (solve6Loop n dom u L sol acc).2 j = vecAt dom.ubs j) := by
  induction L generalizing sol acc with
  | nil => intro j hj; simp at hj
  | cons i rest ih =>
    have hind : i ∉ rest := (List.nodup_cons.mp hnd).1
    have hndr : rest.Nodup := (List.nodup_cons.mp hnd).2
    have hil : i < sol.length := hlen i (by simp)
    intro j hj
    have hlen2 : ∀ a ∈ rest, a < (sol.set i (vecAt dom.lbs i)).length := by
      intro a ha; rw [List.length_set]; exact hlen a (by simp [ha])
    have hlen3 : ∀ a ∈ rest, a < (sol.set i (vecAt dom.ubs i)).length := by
      intro a ha; rw [List.length_set]; exact hlen a (by simp [ha])
    simp only [solve6Loop] at hz ⊢
    by_cases hb : n.isZero (vecAt u i)
    · rw [if_pos hb] at hz ⊢
      rcases List.mem_cons.mp hj with hji | hjr
      · subst hji
        rw [solve6Loop_notMem _ _ _ _ _ _ _ hind]
        refine ⟨fun _ => ?_,
          fun hg => absurd hg (Num.not_isGT_zero_of_isZero heps hb),
          fun hl => absurd hl (Num.not_isLT_zero_of_isZero heps hb)⟩
        simp [vecAt, List.getElem?_set_eq_of_lt _ hil]
      · exact ih _ _ hndr hlen2 hz j hjr
    · rw [if_neg hb] at hz ⊢
      by_cases hg : n.isGT (vecAt u i) 0
      · rw [if_pos hg] at hz ⊢
        by_cases hf : flagAt dom.lbInf i = true
        · rw [if_pos hf] at hz; simp at hz
        · rw [if_neg hf] at hz ⊢
          rcases List.mem_cons.mp hj with hji | hjr
          · subst hji
            rw [solve6Loop_notMem _ _ _ _ _ _ _ hind]
            refine ⟨fun hm => absurd hm hb, fun _ => ?_,
              fun hl => absurd hl (Num.not_isLT_zero_of_isGT heps hg)⟩
            simp [vecAt, List.getElem?_set_eq_of_lt _ hil]
          · exact ih _ _ hndr hlen2 hz j hjr
      · rw [if_neg hg] at hz ⊢
        by_cases hf : flagAt dom.ubInf i = true
        · rw [if_pos hf] at hz; simp at hz
        · rw [if_neg hf] at hz ⊢
          rcases List.mem_cons.mp hj with hji | hjr
          · subst hji
            rw [solve6Loop_notMem _ _ _ _ _ _ _ hind]
            refine ⟨fun hm => absurd hm hb, fun hgt => absurd hgt hg,
              fun _ => ?_⟩
            simp [vecAt, List.getElem?_set_eq_of_lt _ hil]
          · exact ih _ _ hndr hlen3 hz j hjr

theorem solve6Loop_none_iff (n : Num) (heps : 0 ≤ n.eps) (dom : VolDomains)
    (u : List ℚ) (L : List ℕ) (sol : List ℚ) (acc : ℚ) :
    (solve6Loop n dom u L sol acc).1 = none ↔
      ∃ j ∈ L, degenerateAt n dom u j := by
  induction L generalizing sol acc with
  | nil => simp [solve6Loop]
  | cons i rest ih =>
    simp only [solve6Loop]
    split
    · rename_i hb
      rw [ih]
      constructor
      · rintro ⟨j, hj, hd⟩; exact ⟨j, by simp [hj], hd⟩
      · rintro ⟨j, hj, hd⟩
        rcases List.mem_cons.mp hj with hji | hjr
        · subst hji
          rcases hd with ⟨hg, _⟩ | ⟨hl, _⟩
          · exact absurd hg (Num.not_isGT_zero_of_isZero heps hb)
          · exact absurd hl (Num.not_isLT_zero_of_isZero heps hb)
        · exact ⟨j, hjr, hd⟩
    · rename_i hb
      split
      · rename_i hg
        split
        · rename_i hf
          simp only [true_iff]
          exact ⟨i, by simp, Or.inl ⟨hg, hf⟩⟩
        · rename_i hf
          rw [ih]
          constructor
          · rintro ⟨j, hj, hd⟩; exact ⟨j, by simp [hj], hd⟩
          · rintro ⟨j, hj, hd⟩
            rcases List.mem_cons.mp hj with hji | hjr
            · subst hji
              rcases hd with ⟨_, hfl⟩ | ⟨hl, _⟩
              · exact absurd hfl hf
              · exact absurd hl (Num.not_isLT_zero_of_isGT heps hg)
            · exact ⟨j, hjr, hd⟩
      · rename_i hg
        have hlt : n.isLT (vecAt u i) 0 := Num.isLT_zero_of_not heps hb hg
        split
        · rename_i hf
          simp only [true_iff]
          exact ⟨i, by simp, Or.inr ⟨hlt, hf⟩⟩
        · rename_i hf
          rw [ih]
          constructor
          · rintro ⟨j, hj, hd⟩; exact ⟨j, by simp [hj], hd⟩
          · rintro ⟨j, hj, hd⟩
            rcases List.mem_cons.mp hj with hji | hjr
            · subst hji
              rcases hd with ⟨hgt, _⟩ | ⟨_, hfl⟩
              · exact absurd hgt hg
              · exact absurd hfl hf
            · exact ⟨j, hjr, hd⟩

/-- A representative tolerance used by the concrete instances below. -/
def tol : ℚ := 1 / 1000000

/-- A representative numeric kernel with both epsilons at 1e-6. -/
def stdNum : Num := ⟨tol, tol⟩

/-- The side chosen for variable j by the per-variable rule of the claim
(lower bound when the reduced cost is positive or approximately zero, upper
bound when negative), together with the infinity flag of that side. -/
def chosenSideInfinite (n : Num) (dom : VolDomains) (u : List ℚ) (j : ℕ) :
    Prop :=
  ((n.isZero (vecAt u j) ∨ n.isGT (vecAt u j) 0) ∧ flagAt dom.lbInf j) ∨
    (n.isLT (vecAt u j) 0 ∧ flagAt dom.ubInf j)

/-- C4, counterexample.  The claim states that whenever the side chosen for
ANY variable is infinite, create_problem_6_and_solve_it returns the minimum
representable value (the degenerate early return, modelled as none).  On a
single variable with reduced cost 0 (isZero) and an infinite lower bound, the
isZero branch at VolumeAlgorithm.hpp line 293 assigns the stored lower bound
without any infinity check and the function returns the accumulated objective
0, not the degenerate value. -/
theorem volume_solve6_degenerate_counterexample :
    chosenSideInfinite stdNum ⟨[0], [5], [true], [false], [false]⟩
      (bMinusxA ([] : List SparseRow) [] [0]) 0 ∧
    (solve6 stdNum [0] ⟨[], []⟩ [] ⟨[0], [5], [true], [false], [false]⟩ []
      [7]).1 = some 0 := by
  constructor
  · refine Or.inl ⟨Or.inl ?_, by norm_num [flagAt]⟩
    norm_num [bMinusxA, vecAt, stableSum, Num.isZero, stdNum, tol]
  · norm_num [solve6, solve6Loop, bMinusxA, vecAt, stableSum, multi,
      List.range_succ, Num.isZero, Num.isGT, stdNum, tol, flagAt]

/-- C4, amended claim: the solver picks lb on positive reduced cost, ub on
negative reduced cost and lb on approximately-zero reduced cost, and it
returns the degenerate minimum-representable value exactly when some variable
with reduced cost strictly positive has an infinite lower bound or with
reduced cost strictly negative has an infinite upper bound (the
approximately-zero branch performs no infinity check). -/
theorem volume_solve6_choice (n : Num) (heps : 0 ≤ n.eps) (c : List ℚ)
    (A : VolMatrix) (b : List ℚ) (dom : VolDomains) (pi sol : List ℚ)
    (hsol : c.length ≤ sol.length) :
    ((solve6 n c A b dom pi sol).1 = none ↔
      ∃ j < c.length, degenerateAt n dom (bMinusxA A.rows pi c) j) ∧
    ((solve6 n c A b dom pi sol).1 ≠ none → ∀ j < c.length,
      (n.isZero (vecAt (bMinusxA A.rows pi c) j) →
        vecAt (solve6 n c A b dom pi sol).2 j = vecAt dom.lbs j) ∧
      (n.isGT (vecAt (bMinusxA A.rows pi c) j) 0 →
        vecAt (solve6 n c A b dom pi sol).2 j = vecAt dom.lbs j) ∧
      (n.isLT (vecAt (bMinusxA A.rows pi c) j) 0 →
        vecAt (solve6 n c A b dom pi sol).2 j = vecAt dom.ubs j)) := by
  constructor
  · rw [solve6, solve6Loop_none_iff n heps]
    simp [List.mem_range]
  · intro hz j hj
    have := solve6Loop_some_mem n heps dom (bMinusxA A.rows pi c)
      (List.range c.length) sol (multi b pi) (List.nodup_range _)
      (by intro i hi; exact lt_of_lt_of_le (List.mem_range.mp hi) hsol)
      (by exact hz) j (List.mem_range.mpr hj)
    exact this

/-- Witness for volume_solve6_choice on a concrete two-variable instance:
reduced costs (1, -1), finite bounds, the solver picks (lb, ub). -/
theorem volume_solve6_choice_witness :
    (0 ≤ stdNum.eps ∧ ([1, -1] : List ℚ).length ≤ ([0, 0] : List ℚ).length) ∧
    (((solve6 stdNum [1, -1] ⟨[], []⟩ [] ⟨[2, 3], [4, 5], [false, false],
        [false, false], [false, false]⟩ [] [0, 0]).1 = none ↔
      ∃ j < ([1, -1] : List ℚ).length,
        degenerateAt stdNum ⟨[2, 3], [4, 5], [false, false], [false, false],
          [false, false]⟩ (bMinusxA ([] : List SparseRow) [] [1, -1]) j) ∧
    ((solve6 stdNum [1, -1] ⟨[], []⟩ [] ⟨[2, 3], [4, 5], [false, false],
        [false, false], [false, false]⟩ [] [0, 0]).1 ≠ none →
      ∀ j < ([1, -1] : List ℚ).length,
      (stdNum.isZero (vecAt (bMinusxA ([] : List SparseRow) [] [1, -1]) j) →
        vecAt (solve6 stdNum [1, -1] ⟨[], []⟩ [] ⟨[2, 3], [4, 5],
          [false, false], [false, false], [false, false]⟩ [] [0, 0]).2 j =
          vecAt ([2, 3] : List ℚ) j) ∧
      (stdNum.isGT (vecAt (bMinusxA ([] : List SparseRow) [] [1, -1]) j) 0 →
        vecAt (solve6 stdNum [1, -1] ⟨[], []⟩ [] ⟨[2, 3], [4, 5],
          [false, false], [false, false], [false, false]⟩ [] [0, 0]).2 j =
          vecAt ([2, 3] : List ℚ) j) ∧
      (stdNum.isLT (vecAt (bMinusxA ([] : List SparseRow) [] [1, -1]) j) 0 →
        vecAt (solve6 stdNum [1, -1] ⟨[], []⟩ [] ⟨[2, 3], [4, 5],
          [false, false], [false, false], [false, false]⟩ [] [0, 0]).2 j =
          vecAt ([4, 5] : List ℚ) j))) :=
  ⟨⟨by norm_num [stdNum, tol], by norm_num⟩,
    volume_solve6_choice stdNum (by norm_num [stdNum, tol]) [1, -1] ⟨[], []⟩
      [] ⟨[2, 3], [4, 5], [false, false], [false, false], [false, false]⟩ []
      [0, 0] (by norm_num)⟩

/-- The parameters read by VolumeAlgorithm.hpp from the AlgorithmParameter
block (the snapshot's AlgorithmParameter.hpp predates some of these fields;
the fields here are exactly the ones the volume algorithm dereferences),
plus dbl_min, the value of the degenerate early return of
create_problem_6_and_solve_it (std::numeric_limits of REAL min). -/
structure VolParams where
  con_abstol : ℚ
  obj_abstol : ℚ
  obj_reltol : ℚ
  num_iters_fixed_int_vars_check : ℕ
  fixed_int_var_threshold : ℚ
  time_limit : ℚ
  max_iterations : ℕ
  weak_improvement_iter_limit : ℕ
  non_improvement_iter_limit : ℕ
  f_strong_incr_factor : ℚ
  f_weak_incr_factor : ℚ
  f_decr_factor : ℚ
  f_min : ℚ
  f_max : ℚ
  alpha : ℚ
  alpha_max : ℚ
  f : ℚ
  dbl_min : ℚ

/-- update_pi (VolumeAlgorithm.hpp lines 214-226): on every row flagged
RowFlag::kRhsInf (a >=-row) the dual component is projected to
max(pi_i, 0); all other components are left unchanged. -/
def updatePi (A : VolMatrix) (pi : List ℚ) : List ℚ :=
  (List.range A.rows.length).map (fun i =>
    if flagAt A.rhsInf i then max (vecAt pi i) 0 else vecAt pi i)

/-- calc_violations (VolumeAlgorithm.hpp lines 357-370): the violation vector
equals the residual except that components of >=-rows with negative residual
and zero dual are zeroed (complementary slackness). -/
def calcViolations (n : Num) (A : VolMatrix) (pi residual : List ℚ) :
    List ℚ :=
  (List.range A.rows.length).map (fun i =>
    if flagAt A.rhsInf i ∧ n.isLT (vecAt residual i) 0 ∧
        n.isZero (vecAt pi i) then 0
    else vecAt residual i)

/-- update_upper_bound (VolumeAlgorithm.hpp lines 372-396), as a pure
function of the previous target returning the new target and flag. -/
def updateUpperBound (n : Num) (z_bar ub_reset ub : ℚ) (finite : Bool) :
    ℚ × Bool :=
  if finite then
    (if n.isGE z_bar (ub - |ub| * (0.05 : ℚ)) then
      (if n.isZero z_bar then ub_reset
       else max (ub + |ub| * (0.03 : ℚ)) (z_bar + |z_bar| * (0.06 : ℚ)))
     else ub, true)
  else
    (if n.isZero z_bar then ub_reset else z_bar + |z_bar| * (0.06 : ℚ), true)

/-- calc_alpha (VolumeAlgorithm.hpp lines 398-423): the optimal convex
weight, clamped into the interval from alpha_max / 10 to alpha_max. -/
def calcAlpha (n : Num) (alpha_max : ℚ) (residual_t residual_bar : List ℚ) :
    ℚ :=
  let tt := multi residual_t residual_t
  let tb := multi residual_t residual_bar
  let bb := multi residual_bar residual_bar
  let aopt := if n.isGT (tt + bb - 2 * tb) 0 then
      (bb - tb) / (tt + bb - 2 * tb)
    else alpha_max
  if n.isLT aopt (alpha_max / 10) then alpha_max / 10
  else if n.isGT aopt alpha_max then alpha_max
  else aopt

/-- update_f (VolumeAlgorithm.hpp lines 425-483) as a pure function; the
result is the new f together with the new weak-improvement and
non-improvement counters. -/
def updateF (p : VolParams) (n : Num) (improvement : Bool)
    (v_t residual_t : List ℚ) (weak nonimp : ℕ) (f : ℚ) : ℚ × ℕ × ℕ :=
  if improvement then
    if n.isGE (multi v_t residual_t) 0 then
      (min (p.f_strong_incr_factor * f) p.f_max, weak, nonimp)
    else if weak + 1 ≥ p.weak_improvement_iter_limit then
      (min (p.f_weak_incr_factor * f) p.f_max, 0, nonimp)
    else (f, weak + 1, nonimp)
  else if nonimp + 1 ≥ p.non_improvement_iter_limit then
    (if n.isGE (p.f_decr_factor * f) p.f_min then p.f_decr_factor * f else f,
      weak, 0)
  else (f, weak, nonimp + 1)

/-- init_fixed_int_count (VolumeAlgorithm.hpp lines 319-333). -/
def initFixedIntCount (n : Num) (dom : VolDomains) (x_bar : List ℚ) :
    List ℕ :=
  (List.range x_bar.length).map (fun i =>
    if flagAt dom.integral i ∧ n.isIntegral (vecAt x_bar i) then 1 else 0)

/-- update_fixed_int_count (VolumeAlgorithm.hpp lines 337-355). -/
def updateFixedIntCount (n : Num) (dom : VolDomains) (x_bar x_last : List ℚ)
    (counts : List ℕ) : List ℕ :=
  (List.range x_bar.length).map (fun i =>
    if flagAt dom.integral i ∧ n.isIntegral (vecAt x_bar i) ∧
        n.isEq (vecAt x_bar i) (vecAt x_last i) then counts.getD i 0 + 1
    else 0)

/-- update_alpha_max (VolumeAlgorithm.hpp lines 509-516). -/
def updateAlphaMax (n : Num) (z_bar z_bar_old alpha_max : ℚ) : ℚ :=
  if n.isLT z_bar (z_bar_old + (0.01 : ℚ) * |z_bar_old|) ∧
      n.isGE (alpha_max / 2) (1 / 10000) then alpha_max / 2
  else alpha_max

/-- The mutable state of one call of volume_algorithm: every local of the
main loop of VolumeAlgorithm.hpp lines 84-183 plus the member fields alpha,
alpha_max and f that the helper routines mutate. -/
structure VolState where
  counter : ℕ
  weak : ℕ
  nonimp : ℕ
  v_t : List ℚ
  viol : List ℚ
  x_t : List ℚ
  pi_t : List ℚ
  pi_bar : List ℚ
  residual : List ℚ
  z_bar : ℚ
  z_bar_old : ℚ
  ub_reset : ℚ
  upper_bound : ℚ
  finite_ub : Bool
  x_bar : List ℚ
  x_bar_last : List ℚ
  fixed_counts : List ℕ
  alpha : ℚ
  alpha_max : ℚ
  f : ℚ

/-- Step 0 of volume_algorithm (VolumeAlgorithm.hpp lines 84-115): pi_t is
the projected copy of the initial pi while pi_bar keeps the raw input; the
initial subproblem is solved with the RAW pi (line 99) and x_t starts as a
copy of c (line 92). -/
def volInit (p : VolParams) (n : Num) (c : List ℚ) (A : VolMatrix)
    (b : List ℚ) (dom : VolDomains) (pi : List ℚ) (ubhint : ℚ) : VolState :=
  let s6 := solve6 n c A b dom pi c
  let z_bar := (s6.1).getD p.dbl_min
  let x_bar := s6.2
  let counts := initFixedIntCount n dom x_bar
  let v_t := bMinusAx A.rows x_bar b
  { counter := 1, weak := 0, nonimp := 0, v_t := v_t,
    viol := calcViolations n A pi v_t, x_t := s6.2, pi_t := updatePi A pi,
    pi_bar := pi, residual := b, z_bar := z_bar, z_bar_old := z_bar,
    ub_reset := if n.isGE ubhint 1 then 1 else ubhint, upper_bound := 0,
    finite_ub := false, x_bar := x_bar, x_bar_last := x_bar,
    fixed_counts := counts, alpha := p.alpha, alpha_max := p.alpha_max,
    f := p.f }

/-- One iteration of the main loop of volume_algorithm (VolumeAlgorithm.hpp
lines 121-182).  Note that update_f (line 167) receives the v_t recomputed
at line 163 from the NEW x_bar, and that the alpha_max refresh fires when the
pre-increment counter is a multiple of 100. -/
def volStep (p : VolParams) (n : Num) (c : List ℚ) (A : VolMatrix)
    (b : List ℚ) (dom : VolDomains) (s : VolState) : VolState :=
  let ubp := updateUpperBound n s.z_bar s.ub_reset s.upper_bound s.finite_ub
  let step_size := s.f * (ubp.1 - s.z_bar) / l2NormSq s.v_t
  let pi_t := updatePi A (bPlusSx s.pi_bar step_size s.v_t)
  let s6 := solve6 n c A b dom pi_t s.x_t
  let z_t := (s6.1).getD p.dbl_min
  let x_t := s6.2
  let residual_t := bMinusAx A.rows x_t b
  let alpha1 := calcAlpha n s.alpha_max residual_t s.v_t
  let x_bar := qbPlusSx alpha1 x_t (1 - alpha1) s.x_bar
  let improvement : Bool := decide (n.isGT z_t s.z_bar)
  let z_bar := if improvement then z_t else s.z_bar
  let pi_bar := if improvement then pi_t else s.pi_bar
  let counts := updateFixedIntCount n dom x_bar s.x_bar s.fixed_counts
  let v_t := bMinusAx A.rows x_bar b
  let fwn := updateF p n improvement v_t residual_t s.weak s.nonimp s.f
  let amax1 := if s.counter % 100 = 0 then
      updateAlphaMax n z_bar s.z_bar_old s.alpha_max
    else s.alpha_max
  let zold1 := if s.counter % 100 = 0 then z_bar else s.z_bar_old
  { counter := s.counter + 1, weak := fwn.2.1, nonimp := fwn.2.2, v_t := v_t,
    viol := calcViolations n A pi_bar v_t, x_t := x_t, pi_t := pi_t,
    pi_bar := pi_bar, residual := residual_t, z_bar := z_bar,
    z_bar_old := zold1, ub_reset := s.ub_reset, upper_bound := ubp.1,
    finite_ub := ubp.2, x_bar := x_bar, x_bar_last := s.x_bar,
    fixed_counts := counts, alpha := alpha1, alpha_max := amax1, f := fwn.1 }

/-- The number of entries of fixed_int_vars_count strictly above the
configured window (the count_if of VolumeAlgorithm.hpp lines 248-253). -/
def countFixed (p : VolParams) (counts : List ℕ) : ℕ :=
  counts.countP (fun v => decide (p.num_iters_fixed_int_vars_check < v))

/-- stopping_criteria (VolumeAlgorithm.hpp lines 228-277), mirroring the C++
boolean structure: the function is TRUE when the loop must continue, i.e. it
returns the negation of the termination disjunction; the wall clock read by
timer.getTime() is modelled by the oracle tau applied to the iteration
counter. -/
def stoppingCriteria (p : VolParams) (n : Num) (tau : ℕ → ℚ) (c : List ℚ)
    (num_int : ℕ) (m : ℕ) (s : VolState) : Prop :=
  let primal_feas_term := n.isLT (l1Norm s.viol) (m * p.con_abstol)
  let duality_gap_abs_term := n.isLT |multi c s.x_bar| p.obj_abstol
  let duality_gap_rel_term :=
    n.isLT |multi c s.x_bar - s.z_bar| (|s.z_bar| * p.obj_reltol)
  let duality_gap_term := if n.isZero s.z_bar then duality_gap_abs_term
    else duality_gap_rel_term
  let fixed_int_var_term := n.isGE (countFixed p s.fixed_counts : ℚ)
    (num_int * p.fixed_int_var_threshold)
  let time_limit_term := n.isGE (tau s.counter) p.time_limit
  let iter_limit_term := s.counter - 1 ≥ p.max_iterations
  ¬ ( (primal_feas_term ∧ duality_gap_term) ∨ fixed_int_var_term ∨
      time_limit_term ∨ iter_limit_term )

instance (p : VolParams) (n : Num) (tau : ℕ → ℚ) (c : List ℚ)
    (num_int : ℕ) (m : ℕ) (s : VolState) :
    Decidable (stoppingCriteria p n tau c num_int m s) := by
  unfold stoppingCriteria; infer_instance

/-- The main loop of volume_algorithm (line 117): keep stepping while
stopping_criteria holds, for at most the given fuel; the C++ loop needs no
fuel because the iteration-limit criterion bounds it, and every reachable
state of a run is volLoop applied to some fuel. -/
def volLoop (p : VolParams) (n : Num) (tau : ℕ → ℚ) (c : List ℚ)
    (A : VolMatrix) (b : List ℚ) (dom : VolDomains) (num_int : ℕ) :
    ℕ → VolState → VolState
  | 0, s => s
  | k + 1, s =>
    if stoppingCriteria p n tau c num_int A.rows.length s then
      volLoop p n tau c A b dom num_int k (volStep p n c A b dom s)
    else s

/-- The first termination criterion of the claim: the L1 norm of the
violation vector is below m times the constraint tolerance AND the duality
gap is small, relative to the magnitude of z_bar in general and absolute
when z_bar is approximately zero. -/
def primalDualCriterion (p : VolParams) (n : Num) (c : List ℚ) (m : ℕ)
    (s : VolState) : Prop :=
  n.isLT (l1Norm s.viol) (m * p.con_abstol) ∧
    ((¬ n.isZero s.z_bar ∧
        n.isLT |multi c s.x_bar - s.z_bar| (|s.z_bar| * p.obj_reltol)) ∨
      (n.isZero s.z_bar ∧ n.isLT |multi c s.x_bar| p.obj_abstol))

/-- The second termination criterion of the claim: the configured fraction
of the integer variables has stayed integral-valued and unchanged for more
than the configured window. -/
def intFixedCriterion (p : VolParams) (n : Num) (num_int : ℕ)
    (s : VolState) : Prop :=
  n.isGE (countFixed p s.fixed_counts : ℚ)
    (num_int * p.fixed_int_var_threshold)

/-- The third termination criterion of the claim: the time limit is
exceeded. -/
def timeLimitCriterion (p : VolParams) (n : Num) (tau : ℕ → ℚ)
    (s : VolState) : Prop :=
  n.isGE (tau s.counter) p.time_limit

/-- The fourth termination criterion of the claim: the iteration limit is
reached (the iteration count passed to stopping_criteria is counter - 1). -/
def iterLimitCriterion (p : VolParams) (s : VolState) : Prop :=
  s.counter - 1 ≥ p.max_iterations

instance (p : VolParams) (n : Num) (c : List ℚ) (m : ℕ) (s : VolState) :
    Decidable (primalDualCriterion p n c m s) := by
  unfold primalDualCriterion; infer_instance

instance (p : VolParams) (n : Num) (num_int : ℕ) (s : VolState) :
    Decidable (intFixedCriterion p n num_int s) := by
  unfold intFixedCriterion; infer_instance

instance (p : VolParams) (n : Num) (tau : ℕ → ℚ) (s : VolState) :
    Decidable (timeLimitCriterion p n tau s) := by
  unfold timeLimitCriterion; infer_instance

instance (p : VolParams) (s : VolState) :
    Decidable (iterLimitCriterion p s) := by
  unfold iterLimitCriterion; infer_instance

/-- C3: the main loop of volume_algorithm exits at a state exactly when one
of the four termination criteria of the claim holds there, and otherwise
performs another iteration: the while condition stopping_criteria is
precisely the negation of the four-way disjunction. -/
theorem volume_loop_termination (p : VolParams) (n : Num) (tau : ℕ → ℚ)
    (c : List ℚ) (A : VolMatrix) (b : List ℚ) (dom : VolDomains)
    (num_int : ℕ) (k : ℕ) (s : VolState) :
    volLoop p n tau c A b dom num_int (k + 1) s =
      if primalDualCriterion p n c A.rows.length s ∨
          intFixedCriterion p n num_int s ∨ timeLimitCriterion p n tau s ∨
          iterLimitCriterion p s
      then s
      else volLoop p n tau c A b dom num_int k (volStep p n c A b dom s) := by
  have hiff : stoppingCriteria p n tau c num_int A.rows.length s ↔
      ¬ (primalDualCriterion p n c A.rows.length s ∨
        intFixedCriterion p n num_int s ∨ timeLimitCriterion p n tau s ∨
        iterLimitCriterion p s) := by
    unfold stoppingCriteria primalDualCriterion intFixedCriterion
      timeLimitCriterion iterLimitCriterion
    by_cases hz : n.isZero s.z_bar
    · simp only [hz, if_true]; tauto
    · simp only [hz, if_false]; tauto
  by_cases h : primalDualCriterion p n c A.rows.length s ∨
      intFixedCriterion p n num_int s ∨ timeLimitCriterion p n tau s ∨
      iterLimitCriterion p s
  · rw [if_pos h]
    simp only [volLoop]
    rw [if_neg (by rw [hiff]; exact not_not_intro h)]
  · rw [if_neg h]
    simp only [volLoop]
    rw [if_pos (hiff.mpr h)]

/-- The f-update rule as the amended claim states it: on strong improvement
with v.r nonnegative f becomes min(f times the strong factor, f_max); on
improvement with the weak counter reaching its limit f becomes min(f times
the weak factor, f_max) and the counter resets; on the no-improvement
counter reaching its limit the counter resets and f becomes f times the
decrease factor WHEN that product is still at least f_min under the kernel,
and otherwise stays unchanged (the code never clamps up to f_min); in all
other cases f is unchanged and the active counter advances. -/
def updateFAmendedRule (p : VolParams) (n : Num) (improvement : Bool)
    (v_t residual_t : List ℚ) (weak nonimp : ℕ) (f : ℚ) : ℚ × ℕ × ℕ :=
  if improvement then
    if n.isGE (multi v_t residual_t) 0 then
      (min (f * p.f_strong_incr_factor) p.f_max, weak, nonimp)
    else if weak + 1 ≥ p.weak_improvement_iter_limit then
      (min (f * p.f_weak_incr_factor) p.f_max, 0, nonimp)
    else (f, weak + 1, nonimp)
  else if nonimp + 1 ≥ p.non_improvement_iter_limit then
    (if n.isGE (f * p.f_decr_factor) p.f_min then f * p.f_decr_factor
     else f, weak, 0)
  else (f, weak, nonimp + 1)

/-- C5, amended claim: update_f follows the three-branch rule except that on
the decrease branch f is multiplied by the decrease factor only when the
product stays at least f_min under the kernel, and is left unchanged
otherwise -- it is never set to f_min itself. -/
theorem volume_update_f_amended (p : VolParams) (n : Num)
    (improvement : Bool) (v_t residual_t : List ℚ) (weak nonimp : ℕ)
    (f : ℚ) :
    updateF p n improvement v_t residual_t weak nonimp f =
      updateFAmendedRule p n improvement v_t residual_t weak nonimp f := by
  unfold updateF updateFAmendedRule
  rw [mul_comm p.f_strong_incr_factor f, mul_comm p.f_weak_incr_factor f,
    mul_comm p.f_decr_factor f]

/-- The volume algorithm parameter defaults of the spec (section 6) for the
fields present there; the window, threshold and iteration limit fields are
given representative values, and dbl_min the double denormal-min magnitude. -/
def volDefaults : VolParams :=
  { con_abstol := 0.02, obj_abstol := 0.01, obj_reltol := 0.01,
    num_iters_fixed_int_vars_check := 50, fixed_int_var_threshold := 0.8,
    time_limit := 600, max_iterations := 1000,
    weak_improvement_iter_limit := 2, non_improvement_iter_limit := 20,
    f_strong_incr_factor := 2, f_weak_incr_factor := 1.1,
    f_decr_factor := 0.66, f_min := 0.0005, f_max := 2, alpha := 0.5,
    alpha_max := 0.1, f := 0.2, dbl_min := 1 / 10 ^ 308 }

/-- C5, counterexample.  With the default parameters, no improvement, the
no-improvement counter reaching its limit and f = 0.0006, the claim says f
becomes max(f times 0.66, f_min) = 0.0005; the code instead leaves f at
0.0006 because 0.66 times 0.0006 falls below f_min (the guard at
VolumeAlgorithm.hpp lines 476-478 skips the update rather than clamping). -/
theorem volume_update_f_counterexample :
    19 + 1 ≥ volDefaults.non_improvement_iter_limit ∧
    (updateF volDefaults stdNum false [] [] 0 19 (6 / 10000)).1 = 6 / 10000 ∧
    max ((6 / 10000 : ℚ) * volDefaults.f_decr_factor) volDefaults.f_min =
      5 / 10000 ∧
    (6 / 10000 : ℚ) ≠ 5 / 10000 := by
  refine ⟨by norm_num [volDefaults], ?_, ?_, by norm_num⟩
  · norm_num [updateF, volDefaults, stdNum, tol, Num.isGE, multi, stableSum]
  · norm_num [volDefaults]

/-- Non-negativity of the dual multipliers on all rows flagged kRhsInf
(the >=-rows), the invariant of claim C9. -/
def dualNonnegOnGeRows (A : VolMatrix) (pi : List ℚ) : Prop :=
  ∀ i < A.rows.length, flagAt A.rhsInf i = true → 0 ≤ vecAt pi i

theorem updatePi_nonneg (A : VolMatrix) (pi : List ℚ) :
    dualNonnegOnGeRows A (updatePi A pi) := by
  intro i hi hflag
  unfold updatePi vecAt
  rw [List.getD_eq_getElem?_getD, List.getElem?_map,
    List.getElem?_range hi]
  simp [hflag]

theorem volStep_pi_t_eq (p : VolParams) (n : Num) (c : List ℚ)
    (A : VolMatrix) (b : List ℚ) (dom : VolDomains) (s : VolState) :
    (volStep p n c A b dom s).pi_t =
      updatePi A (bPlusSx s.pi_bar
        (s.f * ((updateUpperBound n s.z_bar s.ub_reset s.upper_bound
          s.finite_ub).1 - s.z_bar) / l2NormSq s.v_t) s.v_t) := rfl

theorem volStep_pi_bar_eq (p : VolParams) (n : Num) (c : List ℚ)
    (A : VolMatrix) (b : List ℚ) (dom : VolDomains) (s : VolState) :
    (volStep p n c A b dom s).pi_bar =
      (if decide (n.isGT (((solve6 n c A b dom
          ((volStep p n c A b dom s).pi_t) s.x_t).1).getD p.dbl_min)
          s.z_bar)
       then (volStep p n c A b dom s).pi_t
       else s.pi_bar) := rfl

theorem volStep_dual_nonneg (p : VolParams) (n : Num) (c : List ℚ)
    (A : VolMatrix) (b : List ℚ) (dom : VolDomains) (s : VolState)
    (h : dualNonnegOnGeRows A s.pi_bar) :
    dualNonnegOnGeRows A (volStep p n c A b dom s).pi_t ∧
      dualNonnegOnGeRows A (volStep p n c A b dom s).pi_bar := by
  constructor
  · rw [volStep_pi_t_eq]
    exact updatePi_nonneg A _
  · rw [volStep_pi_bar_eq]
    split
    · rw [volStep_pi_t_eq]
      exact updatePi_nonneg A _
    · exact h

theorem volLoop_dual_nonneg (p : VolParams) (n : Num) (tau : ℕ → ℚ)
    (c : List ℚ) (A : VolMatrix) (b : List ℚ) (dom : VolDomains)
    (num_int : ℕ) (k : ℕ) (s : VolState)
    (ht : dualNonnegOnGeRows A s.pi_t)
    (hb : dualNonnegOnGeRows A s.pi_bar) :
    dualNonnegOnGeRows A
        ((volLoop p n tau c A b dom num_int k s).pi_t) ∧
      dualNonnegOnGeRows A
        ((volLoop p n tau c A b dom num_int k s).pi_bar) := by
  induction k generalizing s with
  | zero => exact ⟨ht, hb⟩
  | succ k ih =>
    simp only [volLoop]
    split
    · exact ih _ (volStep_dual_nonneg p n c A b dom s hb).1
        (volStep_dual_nonneg p n c A b dom s hb).2
    · exact ⟨ht, hb⟩

/-- C9, amended claim: provided the INITIAL dual vector is non-negative on
every >=-row, then throughout the run both the projected proposal pi_t and
the retained pi_bar stay non-negative on every >=-row: update_pi projects
pi_t, and pi_bar is only ever replaced by a projected pi_t. -/
theorem volume_dual_nonneg (p : VolParams) (n : Num) (tau : ℕ → ℚ)
    (c : List ℚ) (A : VolMatrix) (b : List ℚ) (dom : VolDomains)
    (num_int : ℕ) (pi : List ℚ) (ubhint : ℚ)
    (hpi : dualNonnegOnGeRows A pi) (k : ℕ) :
    dualNonnegOnGeRows A ((volLoop p n tau c A b dom num_int k
        (volInit p n c A b dom pi ubhint)).pi_t) ∧
      dualNonnegOnGeRows A ((volLoop p n tau c A b dom num_int k
        (volInit p n c A b dom pi ubhint)).pi_bar) := by
  apply volLoop_dual_nonneg
  · show dualNonnegOnGeRows A (updatePi A pi)
    exact updatePi_nonneg A pi
  · exact hpi

/-- A one-row >=-problem (row x >= 1) used by the dual-invariant claim. -/
def geRowMatrix : VolMatrix := ⟨[[(0, 1)]], [true]⟩

/-- Domains for the one-variable instance: x integral in [0, 2]. -/
def geRowDomains : VolDomains := ⟨[0], [2], [false], [false], [true]⟩

/-- C9, counterexample.  The claim asserts the non-negativity invariant for
every run; but volume_algorithm initializes pi_bar with the RAW input pi
(line 94, before update_pi is applied to pi_t only), so with initial
pi = (-1) on a >=-row the retained pi_bar of the initial state -- which is
in use, e.g. by calc_violations at line 115 -- has a negative component on
a >=-row. -/
theorem volume_dual_nonneg_counterexample :
    flagAt geRowMatrix.rhsInf 0 = true ∧
    ¬ dualNonnegOnGeRows geRowMatrix
        ((volLoop volDefaults stdNum (fun _ => 0) [1] geRowMatrix [1]
          geRowDomains 1 0
          (volInit volDefaults stdNum [1] geRowMatrix [1] geRowDomains
            [-1] 3)).pi_bar) := by
  constructor
  · rfl
  · intro hN
    have h0 := hN 0 (by norm_num [geRowMatrix]) rfl
    simp only [volLoop] at h0
    have hpb : (volInit volDefaults stdNum [1] geRowMatrix [1] geRowDomains
        [-1] 3).pi_bar = [-1] := rfl
    rw [hpb] at h0
    norm_num [vecAt] at h0

/-- Witness for volume_dual_nonneg: starting from pi = (0) on the one-row
>=-instance, the invariant holds after one loop fuel step. -/
theorem volume_dual_nonneg_witness :
    dualNonnegOnGeRows geRowMatrix [0] ∧
    (dualNonnegOnGeRows geRowMatrix ((volLoop volDefaults stdNum (fun _ => 0)
        [1] geRowMatrix [1] geRowDomains 1 1
        (volInit volDefaults stdNum [1] geRowMatrix [1] geRowDomains [0]
          3)).pi_t) ∧
      dualNonnegOnGeRows geRowMatrix ((volLoop volDefaults stdNum (fun _ => 0)
        [1] geRowMatrix [1] geRowDomains 1 1
        (volInit volDefaults stdNum [1] geRowMatrix [1] geRowDomains [0]
          3)).pi_bar)) :=
  have hp : dualNonnegOnGeRows geRowMatrix [0] := by
    intro i hi hf
    have h1 : i = 0 := by
      simp only [geRowMatrix, List.length_cons, List.length_nil] at hi
      omega
    subst h1
    norm_num [vecAt]
  ⟨hp, volume_dual_nonneg volDefaults stdNum (fun _ => 0) [1] geRowMatrix
    [1] geRowDomains 1 [0] 3 hp 1⟩

/-! ## The probing view and the fix-and-propagate driver

papilo/core/ProbingView.hpp is not part of the snapshot; the view is
modelled from the spec (sections 3 and 4.4).  The infeasibility detection of
propagateDomains follows the spec's own characterization (section 8: after
propagateDomains, for every row not flagged redundant the side constraints
hold for every point of the current bound box, or the view is infeasible):
a non-redundant row whose activity range cannot meet its sides beyond the
feasibility tolerance latches the infeasible flag.  The bound-tightening
aspect of propagation, which only narrows bounds and is not needed by the
claims below, is not modelled. -/

/-- A base-problem row: sparse entries, sides and flags. -/
structure PRow where
  ents : SparseRow
  lhs : ℚ
  rhs : ℚ
  lhsInf : Bool
  rhsInf : Bool
  redundant : Bool

/-- The immutable base problem a probing view overlays (spec section 3). -/
structure BaseProblem where
  obj : List ℚ
  rows : List PRow
  lbs : List ℚ
  ubs : List ℚ
  lbInf : List Bool
  ubInf : List Bool
  integral : List Bool

/-- Modelled from the spec: the probing view (section 3): bound arrays and
flags copied from the base problem, the fixings trail, and the latched
infeasible flag. -/
structure PView where
  base : BaseProblem
  lbs : List ℚ
  ubs : List ℚ
  lbInf : List Bool
  ubInf : List Bool
  fixings : List (ℕ × ℚ)
  infeasible : Bool

/-- Modelled from the spec: reset() restores the view to the base problem
exactly and discards the trail and the infeasible latch. -/
def PView.reset (pv : PView) : PView :=
  ⟨pv.base, pv.base.lbs, pv.base.ubs, pv.base.lbInf, pv.base.ubInf, [],
    false⟩

/-- Modelled from the spec: setProbingColumn(col, value) appends to the
trail and tightens both bounds to the value (making them finite). -/
def PView.setProbingColumn (pv : PView) (col : ℕ) (v : ℚ) : PView :=
  { pv with
    lbs := pv.lbs.set col v,
    ubs := pv.ubs.set col v,
    lbInf := pv.lbInf.set col false,
    ubInf := pv.ubInf.set col false,
    fixings := pv.fixings ++ [(col, v)] }

/-- Addition on optional rationals where none stands for an infinite
activity contribution. -/
def optAdd : Option ℚ → Option ℚ → Option ℚ
  | some a, some b => some (a + b)
  | _, _ => none

/-- The minimum-activity contribution of one row entry over the view's
current box (none when the needed bound is infinite). -/
def entMinContrib (pv : PView) (e : ℕ × ℚ) : Option ℚ :=
  if 0 < e.2 then
    (if flagAt pv.lbInf e.1 then none else some (e.2 * vecAt pv.lbs e.1))
  else if e.2 < 0 then
    (if flagAt pv.ubInf e.1 then none else some (e.2 * vecAt pv.ubs e.1))
  else some 0

/-- The maximum-activity contribution of one row entry over the view's
current box (none when the needed bound is infinite). -/
def entMaxContrib (pv : PView) (e : ℕ × ℚ) : Option ℚ :=
  if 0 < e.2 then
    (if flagAt pv.ubInf e.1 then none else some (e.2 * vecAt pv.ubs e.1))
  else if e.2 < 0 then
    (if flagAt pv.lbInf e.1 then none else some (e.2 * vecAt pv.lbs e.1))
  else some 0

/-- Minimum activity of a row over the current box; none means -infinity. -/
def rowMinAct (pv : PView) (r : SparseRow) : Option ℚ :=
  r.foldr (fun e acc => optAdd (entMinContrib pv e) acc) (some 0)

/-- Maximum activity of a row over the current box; none means +infinity. -/
def rowMaxAct (pv : PView) (r : SparseRow) : Option ℚ :=
  r.foldr (fun e acc => optAdd (entMaxContrib pv e) acc) (some 0)

/-- A row is violated beyond the feasibility tolerance over the current box:
its minimum activity exceeds a finite right-hand side, or its maximum
activity falls short of a finite left-hand side. -/
def rowViolatedB (n : Num) (pv : PView) (row : PRow) : Bool :=
  (!row.rhsInf && (match rowMinAct pv row.ents with
    | some m => decide (row.rhs + n.feastol < m)
    | none => false)) ||
  (!row.lhsInf && (match rowMaxAct pv row.ents with
    | some m => decide (m < row.lhs - n.feastol)
    | none => false))

/-- Modelled from the spec: propagateDomains latches the infeasible flag as
soon as some non-redundant row cannot be satisfied within the current
bounds beyond the feasibility tolerance (sections 4.4 and 8). -/
def PView.propagateDomains (n : Num) (pv : PView) : PView :=
  { pv with infeasible := pv.infeasible ||
      pv.base.rows.any (fun r => !r.redundant && rowViolatedB n pv r) }

/-- perform_probing_step (FixAndPropagate.hpp lines 263-270): skip
propagation when the view is already infeasible, otherwise propagate; the
boolean reports the infeasible flag afterwards. -/
def performProbingStep (n : Num) (pv : PView) : Bool × PView :=
  if pv.infeasible then (true, pv)
  else
    let pv2 := pv.propagateDomains n
    (pv2.infeasible, pv2)

/-- Modelled from the spec: is_within_bounds of the probing view; an
infinite side constrains nothing, a finite side is checked with the
kernel. -/
def PView.isWithinBounds (n : Num) (pv : PView) (col : ℕ) (v : ℚ) : Bool :=
  (flagAt pv.lbInf col || decide (n.isGE v (vecAt pv.lbs col))) &&
  (flagAt pv.ubInf col || decide (n.isLE v (vecAt pv.ubs col)))

/-- Modelled from the spec: is_integer_variable of the probing view. -/
def PView.isIntegerVariable (pv : PView) (col : ℕ) : Bool :=
  flagAt pv.base.integral col

/-- A rounding strategy: select_rounding_variable returns the next fixing
or none for the invalid fixing (all variables rounded). -/
abbrev Strategy := List ℚ → PView → Option (ℕ × ℚ)

/-- propagate_to_leaf_or_infeasibility (FixAndPropagate.hpp lines 237-261):
dive until the strategy returns the invalid fixing, propagating after every
fixing; when stop_at_infeasibility is set, return at the first infeasible
propagation.  The assert that the chosen fixing is within the current
bounds (line 250) is a guard: its violation aborts the run (none), and
fuel exhaustion, modelling non-termination, is also none. -/
def diveLoop (n : Num) (strat : Strategy) (cont : List ℚ) (stop : Bool) :
    ℕ → PView → Option PView
  | 0, _ => none
  | fuel + 1, pv =>
    match strat cont pv with
    | none => some pv
    | some (c, v) =>
      if pv.isWithinBounds n c v then
        let pv1 := pv.setProbingColumn c v
        let sp := performProbingStep n pv1
        if stop && sp.1 then some sp.2
        else diveLoop n strat cont stop fuel sp.2
      else none

/-- The per-column value choice of fix_remaining_integer_solutions
(FixAndPropagate.hpp lines 296-326), with the source's asserts as guards:
the clamped continuous value, or the nearer bound when the continuous value
leaves the current box; for an integer column the in-box value must be
integral. -/
def fixRemainingValue (n : Num) (cont : List ℚ) (pv : PView) (i : ℕ) :
    Option ℚ :=
  let lb := vecAt pv.lbs i
  let ub := vecAt pv.ubs i
  let ge_lb := n.isGE (vecAt cont i) lb
  let le_ub := n.isLE (vecAt cont i) ub
  if pv.isIntegerVariable i then
    if ge_lb ∧ le_ub then
      (if n.isEq (vecAt cont i) (n.round (vecAt cont i)) then
        some (vecAt cont i) else none)
    else if ge_lb then some ub
    else if le_ub then some lb
    else none
  else
    if ge_lb ∧ le_ub then some (vecAt cont i)
    else if ge_lb then some ub
    else if le_ub then some lb
    else none

/-- fix_remaining_integer_solutions (FixAndPropagate.hpp lines 285-334):
every column whose current bounds are not kernel-equal is fixed to the
clamped value and the view propagated; infeasibility is ignored here (the
loop continues), but a failed assert aborts (none). -/
def fixRemainingLoop (n : Num) (cont : List ℚ) :
    List ℕ → PView → Option PView
  | [], pv => some pv
  | i :: rest, pv =>
    if n.isEq (vecAt pv.ubs i) (vecAt pv.lbs i) then
      fixRemainingLoop n cont rest pv
    else
      match fixRemainingValue n cont pv i with
      | none => none
      | some v =>
        let pv1 := pv.setProbingColumn i v
        let sp := performProbingStep n pv1
        fixRemainingLoop n cont rest sp.2

/-- create_solution (FixAndPropagate.hpp lines 336-346): asserts every
column is fixed (kernel-equal bounds) and copies the upper bounds into the
result. -/
def createSolution (n : Num) (pv : PView) : Option (List ℚ) :=
  if (List.range pv.ubs.length).all
      (fun i => decide (n.isEq (vecAt pv.ubs i) (vecAt pv.lbs i))) then
    some pv.ubs
  else none

/-- modify_value_due_to_backtrack (FixAndPropagate.hpp lines 272-283), with
the asserts as guards. -/
def modifyValueDueToBacktrack (n : Num) (value solval : ℚ) : Option ℚ :=
  if n.isGE value solval then
    (if n.isEq (n.feasFloor solval) (value - 1) then some (value - 1)
     else none)
  else
    if n.isLE value solval then
      (if n.isEq (n.feasCeil solval) (value + 1) then some (value + 1)
       else none)
    else none

/-- The replay of all but the last trail fixing after a backtracking reset
(FixAndPropagate.hpp lines 107-112). -/
def replayFixings (n : Num) : List (ℕ × ℚ) → PView → PView
  | [], pv => pv
  | (c, v) :: rest, pv =>
    let pv1 := pv.setProbingColumn c v
    let sp := performProbingStep n pv1
    replayFixings n rest sp.2

/-- The completion tail shared by all feasible exits of fix_and_propagate:
fix the remaining columns, build the solution, and report the view's
infeasible flag. -/
def completeAndReport (n : Num) (cont : List ℚ) (pv : PView) :
    Option (Bool × Option (List ℚ) × PView) := do
  let pv5 ← fixRemainingLoop n cont (List.range cont.length) pv
  let res ← createSolution n pv5
  some (pv5.infeasible, some res, pv5)

/-- The while(true) backtracking loop of fix_and_propagate
(FixAndPropagate.hpp lines 94-138): dive stopping at infeasibility; on an
infeasible leaf, reset, replay all earlier fixings, flip the last decision
and re-propagate; if still infeasible either return (stop_at_infeasibility)
or complete without further backtracking; otherwise loop.  bfuel bounds the
number of backtracks (fuel exhaustion is none). -/
def fnpBacktrackLoop (n : Num) (strat : Strategy) (cont : List ℚ)
    (stop : Bool) (dfuel : ℕ) : ℕ → PView → Option (Bool × Option (List ℚ) × PView)
  | 0, _ => none
  | bfuel + 1, pv => do
    let pv1 ← diveLoop n strat cont true dfuel pv
    if pv1.infeasible then
      match pv1.fixings.getLast? with
      | none => none
      | some last =>
        match modifyValueDueToBacktrack n last.2 (vecAt cont last.1) with
        | none => none
        | some flip =>
          let pv2 := replayFixings n pv1.fixings.dropLast pv1.reset
          let pv3 := pv2.setProbingColumn last.1 flip
          let sp := performProbingStep n pv3
          if sp.1 then
            if stop then some (true, none, sp.2)
            else do
              let pv4 ← diveLoop n strat cont false dfuel sp.2
              completeAndReport n cont pv4
          else fnpBacktrackLoop n strat cont stop dfuel bfuel sp.2
    else completeAndReport n cont pv1

/-- fix_and_propagate (FixAndPropagate.hpp lines 75-139).  The result is
none on assert failure or fuel exhaustion; otherwise the returned triple is
the C++ return value (true = infeasible), the result vector when it was
written, and the final view. -/
def fixAndPropagate (n : Num) (cont : List ℚ) (strat : Strategy)
    (pv0 : PView) (backtracking stop : Bool) (dfuel bfuel : ℕ) :
    Option (Bool × Option (List ℚ) × PView) :=
  let pv := pv0.reset
  if backtracking then fnpBacktrackLoop n strat cont stop dfuel bfuel pv
  else do
    let pv1 ← diveLoop n strat cont stop dfuel pv
    if stop && pv1.infeasible then some (true, none, pv1)
    else completeAndReport n cont pv1

/-- one_opt (FixAndPropagate.hpp lines 222-234): apply the flip, propagate,
and on feasibility complete the remaining columns and build the result. -/
def oneOpt (n : Num) (feasible_solution : List ℚ) (col : ℕ)
    (new_value : ℚ) (pv : PView) : Option (Bool × Option (List ℚ) × PView) :=
  let pv1 := pv.setProbingColumn col new_value
  let sp := performProbingStep n pv1
  if sp.1 then some (true, none, sp.2)
  else completeAndReport n feasible_solution sp.2

/-- The value chosen for a non-fixed column by find_initial_solution
(FixAndPropagate.hpp lines 159-210) for modes 0, 1 and 2; none models the
assert(false) of the default branch and the ill-defined mode 3 path.  The
switch case for mode 0 has NO break: the mode-0 selection is computed into
value and then control falls through into case 1, whose if/else-if/else
overwrites value unconditionally, so the dead mode-0 computation is kept
here as a shadowed binding. -/
def initialValueMode (n : Num) (mode : ℕ) (pv : PView) (i : ℕ) : Option ℚ :=
  match mode with
  | 0 =>
    let _v0 := if ¬ flagAt pv.ubInf i ∧ n.isLT (vecAt pv.ubs i) 0 then
        vecAt pv.ubs i
      else if ¬ flagAt pv.lbInf i ∧ n.isGT (vecAt pv.lbs i) 0 then
        vecAt pv.lbs i
      else 0
    some (if ¬ flagAt pv.lbInf i then vecAt pv.lbs i
      else if ¬ flagAt pv.ubInf i then vecAt pv.ubs i
      else 0)
  | 1 =>
    some (if ¬ flagAt pv.lbInf i then vecAt pv.lbs i
      else if ¬ flagAt pv.ubInf i then vecAt pv.ubs i
      else 0)
  | 2 =>
    some (if ¬ flagAt pv.ubInf i then vecAt pv.ubs i
      else if ¬ flagAt pv.lbInf i then vecAt pv.lbs i
      else 0)
  | _ => none

/-- The column loop of find_initial_solution (FixAndPropagate.hpp lines
152-217): skip columns with kernel-equal bounds, fix the mode value,
propagate, and return true at the first detected infeasibility. -/
def fisLoop (n : Num) (mode : ℕ) : List ℕ → PView → Option (Bool × PView)
  | [], pv => some (false, pv)
  | i :: rest, pv =>
    if n.isEq (vecAt pv.ubs i) (vecAt pv.lbs i) then fisLoop n mode rest pv
    else
      match initialValueMode n mode pv i with
      | none => none
      | some v =>
        let pv1 := pv.setProbingColumn i v
        let sp := performProbingStep n pv1
        if sp.1 then some (true, sp.2)
        else fisLoop n mode rest sp.2

/-- find_initial_solution (FixAndPropagate.hpp lines 147-220): reset, run
the column loop, and on completion build the result from the view; the
triple is the returned boolean, the written result (none when the early
infeasible return skips create_solution) and the final view with its
fixings trail. -/
def findInitialSolution (n : Num) (mode : ℕ) (pv0 : PView) :
    Option (Bool × Option (List ℚ) × PView) :=
  let pv := pv0.reset
  match fisLoop n mode (List.range pv.lbs.length) pv with
  | none => none
  | some (true, pv1) => some (true, none, pv1)
  | some (false, pv1) =>
    match createSolution n pv1 with
    | none => none
    | some res => some (false, some res, pv1)

theorem initialValueMode_zero_eq_one (n : Num) (pv : PView) (i : ℕ) :
    initialValueMode n 0 pv i = initialValueMode n 1 pv i := rfl

theorem fisLoop_zero_eq_one (n : Num) (L : List ℕ) (pv : PView) :
    fisLoop n 0 L pv = fisLoop n 1 L pv := by
  induction L generalizing pv with
  | nil => rfl
  | cons i rest ih =>
    simp only [fisLoop, initialValueMode_zero_eq_one]
    split
    · exact ih pv
    · split
      · rfl
      · split
        · rfl
        · exact ih _

/-- C10: because the switch case for mode 0 in find_initial_solution falls
through into the case for mode 1, a call with mode 0 and a call with mode 1
behave identically on every probing view: same fixings trail, same written
result vector, same return value. -/
theorem find_initial_solution_mode_fallthrough (n : Num) (pv : PView) :
    findInitialSolution n 0 pv = findInitialSolution n 1 pv := by
  show (match fisLoop n 0 (List.range pv.reset.lbs.length) pv.reset with
    | none => none
    | some (true, pv1) => some (true, none, pv1)
    | some (false, pv1) =>
      match createSolution n pv1 with
      | none => none
      | some res => some (false, some res, pv1)) =
    (match fisLoop n 1 (List.range pv.reset.lbs.length) pv.reset with
    | none => none
    | some (true, pv1) => some (true, none, pv1)
    | some (false, pv1) =>
      match createSolution n pv1 with
      | none => none
      | some res => some (false, some res, pv1))
  rw [fisLoop_zero_eq_one]

/-! ## The heuristic orchestrator (src/src/fix/Heuristic.hpp) -/

/-- Strategy i reported feasible: its entry of infeasible_arr is false
(out-of-range entries read as infeasible). -/
def feasAt (infeas : List Bool) (i : ℕ) : Prop := infeas.getD i true = false

instance (infeas : List Bool) (i : ℕ) : Decidable (feasAt infeas i) := by
  unfold feasAt; infer_instance

/-- The reduction loop of Heuristic::evaluate (Heuristic.hpp lines 274-284):
fold over the strategy indices carrying best_index (none for -1) and the
mutated best_obj_val; a feasible candidate is adopted when it is
kernel-strictly below the current best_obj_val, or unconditionally when the
incumbent solution is empty and no candidate was adopted yet. -/
def evaluateLoop (n : Num) (infeas : List Bool) (objs : List ℚ) :
    List ℕ → Option ℕ → ℚ → Bool → Option ℕ × ℚ
  | [], bi, bv, _ => (bi, bv)
  | i :: rest, bi, bv, empt =>
    if feasAt infeas i ∧
        (n.isLT (objs.getD i 0) bv ∨ (empt = true ∧ bi = none)) then
      evaluateLoop n infeas objs rest (some i) (objs.getD i 0) empt
    else
      evaluateLoop n infeas objs rest bi bv empt

/-- Heuristic::evaluate (Heuristic.hpp lines 261-301): when every strategy
reported infeasible, return unchanged; otherwise run the reduction loop and,
when an index was selected, overwrite best_obj_val and the incumbent with
the selected candidate. -/
def evaluate (n : Num) (infeas : List Bool) (objs : List ℚ)
    (sols : List (List ℚ)) (best : ℚ) (cur : List ℚ) : ℚ × List ℚ :=
  if infeas.all (fun b => b) then (best, cur)
  else
    match evaluateLoop n infeas objs (List.range objs.length) none best
        cur.isEmpty with
    | (none, _) => (best, cur)
    | (some i, bv) => (bv, sols.getD i [])

theorem evaluateLoop_some_stays (n : Num) (infeas : List Bool)
    (objs : List ℚ) (L : List ℕ) (i0 : ℕ) (bv : ℚ) (empt : Bool) :
    (evaluateLoop n infeas objs L (some i0) bv empt).1 ≠ none := by
  induction L generalizing i0 bv with
  | nil => simp [evaluateLoop]
  | cons i rest ih =>
    simp only [evaluateLoop]
    split
    · exact ih _ _
    · exact ih _ _

theorem evaluateLoop_none (n : Num) (infeas : List Bool) (objs : List ℚ)
    (L : List ℕ) (bi : Option ℕ) (bv : ℚ) (empt : Bool)
    (h : (evaluateLoop n infeas objs L bi bv empt).1 = none) :
    bi = none ∧ (evaluateLoop n infeas objs L bi bv empt).2 = bv := by
  induction L generalizing bi bv with
  | nil => exact ⟨by simpa [evaluateLoop] using h, rfl⟩
  | cons i rest ih =>
    simp only [evaluateLoop] at h ⊢
    split at h
    · exact absurd h (evaluateLoop_some_stays n infeas objs rest i _ empt)
    · rename_i hc
      rw [if_neg hc]
      exact (ih _ _ h)

theorem evaluateLoop_monotone (n : Num) (heps : 0 ≤ n.eps)
    (infeas : List Bool) (objs : List ℚ) (L : List ℕ) (bi : Option ℕ)
    (bv : ℚ) (empt : Bool) (hok : empt = false ∨ bi ≠ none) :
    (evaluateLoop n infeas objs L bi bv empt).2 ≤ bv := by
  induction L generalizing bi bv with
  | nil => simp [evaluateLoop]
  | cons i rest ih =>
    simp only [evaluateLoop]
    split
    · rename_i hc
      have hlt : n.isLT (objs.getD i 0) bv := by
        rcases hc.2 with h | h
        · exact h
        · rcases hok with h0 | h0
          · rw [h0] at h; exact absurd h.1 (by simp)
          · exact absurd h.2 h0
      have h1 : (evaluateLoop n infeas objs rest (some i) (objs.getD i 0)
          empt).2 ≤ objs.getD i 0 := ih _ _ (Or.inr (by simp))
      have h2 : objs.getD i 0 ≤ bv := by
        have := hlt
        simp only [Num.isLT] at this
        linarith
      linarith
    · exact ih _ _ hok

theorem evaluateLoop_minimal (n : Num) (heps : 0 ≤ n.eps)
    (infeas : List Bool) (objs : List ℚ) (L : List ℕ) (bi : Option ℕ)
    (bv : ℚ) (empt : Bool) :
    ∀ j ∈ L, feasAt infeas j →
      ¬ n.isLT (objs.getD j 0)
        (evaluateLoop n infeas objs L bi bv empt).2 := by
  induction L generalizing bi bv with
  | nil => intro j hj; simp at hj
  | cons i rest ih =>
    intro j hj hfj
    simp only [evaluateLoop]
    split
    · rename_i hc
      rcases List.mem_cons.mp hj with hji | hjr
      · subst hji
        have hm : (evaluateLoop n infeas objs rest (some j) (objs.getD j 0)
            empt).2 ≤ objs.getD j 0 :=
          evaluateLoop_monotone n heps infeas objs rest _ _ empt
            (Or.inr (by simp))
        simp only [Num.isLT]
        intro hcon
        linarith
      · exact ih _ _ j hjr hfj
    · rename_i hc
      rcases List.mem_cons.mp hj with hji | hjr
      · subst hji
        have hok : empt = false ∨ bi ≠ none := by
          rcases Bool.eq_false_or_eq_true empt with h | h
          · right
            intro hb
            exact hc ⟨hfj, Or.inr ⟨h, hb⟩⟩
          · exact Or.inl h
        have hm : (evaluateLoop n infeas objs rest bi bv empt).2 ≤ bv :=
          evaluateLoop_monotone n heps infeas objs rest _ _ empt hok
        have h1 : ¬ n.isLT (objs.getD j 0) bv := fun hlt =>
          hc ⟨hfj, Or.inl hlt⟩
        simp only [Num.isLT] at h1 ⊢
        intro hcon
        linarith
      · exact ih _ _ j hjr hfj

theorem evaluateLoop_some_spec (n : Num) (heps : 0 ≤ n.eps)
    (infeas : List Bool) (objs : List ℚ) (best0 : ℚ) (empt : Bool)
    (R : ℕ → Prop) (L : List ℕ) (hLR : ∀ j ∈ L, R j) (bi : Option ℕ)
    (bv : ℚ) (hnone : bi = none → bv = best0)
    (hsome : ∀ i0, bi = some i0 → R i0 ∧ feasAt infeas i0 ∧
      bv = objs.getD i0 0 ∧ (empt = false → n.isLT bv best0)) :
    ∀ i, (evaluateLoop n infeas objs L bi bv empt).1 = some i →
      R i ∧ feasAt infeas i ∧
      (evaluateLoop n infeas objs L bi bv empt).2 = objs.getD i 0 ∧
      (empt = false →
        n.isLT (evaluateLoop n infeas objs L bi bv empt).2 best0) := by
  induction L generalizing bi bv with
  | nil =>
    intro i h
    simp only [evaluateLoop] at h ⊢
    obtain ⟨h1, h2, h3, h4⟩ := hsome i h
    exact ⟨h1, h2, h3, h4⟩
  | cons i0 rest ih =>
    intro i h
    simp only [evaluateLoop] at h ⊢
    split at h
    · rename_i hc
      rw [if_pos hc]
      refine ih (fun j hj => hLR j (by simp [hj])) (some i0) _
        (by simp) ?_ i h
      intro i1 h1
      have hi1 : i1 = i0 := by simpa using h1.symm
      subst hi1
      refine ⟨hLR i1 (by simp), hc.1, rfl, ?_⟩
      intro hempt
      rcases hc.2 with hlt | hcl
      · by_cases hb : bi = none
        · rw [hnone hb] at hlt; exact hlt
        · obtain ⟨i2, hi2⟩ := Option.ne_none_iff_exists'.mp hb
          obtain ⟨_, _, _, h4⟩ := hsome i2 hi2
          have h5 := h4 hempt
          simp only [Num.isLT] at hlt h5 ⊢
          linarith
      · rw [hempt] at hcl
        exact absurd hcl.1 (by simp)
    · rename_i hc
      rw [if_neg hc]
      exact ih (fun j hj => hLR j (by simp [hj])) bi bv hnone hsome i h

theorem evaluateLoop_no_strict (n : Num) (infeas : List Bool)
    (objs : List ℚ) (L : List ℕ) (bv : ℚ)
    (hns : ∀ j ∈ L, feasAt infeas j → ¬ n.isLT (objs.getD j 0) bv) :
    evaluateLoop n infeas objs L none bv false = (none, bv) := by
  induction L with
  | nil => rfl
  | cons i rest ih =>
    simp only [evaluateLoop]
    rw [if_neg]
    · exact ih (fun j hj hf => hns j (by simp [hj]) hf)
    · rintro ⟨hf, hlt | hcl⟩
      · exact hns i (by simp) hf hlt
      · exact absurd hcl.1 (by simp)

theorem evaluateLoop_empty_finds (n : Num) (infeas : List Bool)
    (objs : List ℚ) (L : List ℕ) (bv : ℚ)
    (h : ∃ j ∈ L, feasAt infeas j) :
    (evaluateLoop n infeas objs L none bv true).1 ≠ none := by
  induction L generalizing bv with
  | nil => obtain ⟨j, hj, _⟩ := h; simp at hj
  | cons i rest ih =>
    simp only [evaluateLoop]
    by_cases hf : feasAt infeas i
    · rw [if_pos ⟨hf, Or.inr (by simp)⟩]
      exact evaluateLoop_some_stays n infeas objs rest i _ true
    · rw [if_neg (fun hc => hf hc.1)]
      obtain ⟨j, hj, hfj⟩ := h
      rcases List.mem_cons.mp hj with hji | hjr
      · subst hji; exact absurd hfj hf
      · exact ih _ ⟨j, hjr, hfj⟩

theorem evaluate_eq_of_loop (n : Num) (infeas : List Bool) (objs : List ℚ)
    (sols : List (List ℚ)) (best : ℚ) (cur : List ℚ)
    (hall : infeas.all (fun b => b) = false) :
    evaluate n infeas objs sols best cur =
      match evaluateLoop n infeas objs (List.range objs.length) none best
          cur.isEmpty with
      | (none, _) => (best, cur)
      | (some i, bv) => (bv, sols.getD i []) := by
  unfold evaluate
  rw [if_neg (by simp [hall])]


/-- C6, amended claim: (1) when every strategy reported infeasible the
incumbent pair is unchanged; (2) when an incumbent solution exists and no
feasible candidate is kernel-strictly below best_obj_val, the pair is
unchanged; (3) when an incumbent exists and the pair changes, the selected
candidate is feasible, kernel-strictly below the incoming best_obj_val, is
written into both outputs, and no feasible candidate is kernel-strictly
below it; (4) when NO incumbent exists (empty current_best_solution), any
feasible candidate is adopted EVEN IF not strictly better than the incoming
best_obj_val - the adopted one is feasible and kernel-minimal among the
feasible candidates. -/
theorem heuristic_evaluate_amended (n : Num) (heps : 0 ≤ n.eps)
    (infeas : List Bool) (objs : List ℚ) (sols : List (List ℚ))
    (best : ℚ) (cur : List ℚ) (hlen : infeas.length = objs.length) :
    (infeas.all (fun b => b) = true →
      evaluate n infeas objs sols best cur = (best, cur)) ∧
    (cur ≠ [] →
      (∀ j < objs.length, feasAt infeas j →
        ¬ n.isLT (objs.getD j 0) best) →
      evaluate n infeas objs sols best cur = (best, cur)) ∧
    (cur ≠ [] → evaluate n infeas objs sols best cur ≠ (best, cur) →
      ∃ i < objs.length, feasAt infeas i ∧
        n.isLT (objs.getD i 0) best ∧
        evaluate n infeas objs sols best cur =
          (objs.getD i 0, sols.getD i []) ∧
        ∀ j < objs.length, feasAt infeas j →
          ¬ n.isLT (objs.getD j 0) (objs.getD i 0)) ∧
    (cur = [] → (∃ i < objs.length, feasAt infeas i) →
      ∃ i < objs.length, feasAt infeas i ∧
        evaluate n infeas objs sols best cur =
          (objs.getD i 0, sols.getD i []) ∧
        ∀ j < objs.length, feasAt infeas j →
          ¬ n.isLT (objs.getD j 0) (objs.getD i 0)) := by
  refine ⟨?_, ?_, ?_, ?_⟩
  · intro hall
    unfold evaluate
    rw [if_pos hall]
  · intro hne hns
    rcases Bool.eq_false_or_eq_true (infeas.all (fun b => b)) with hall | hall
    · unfold evaluate
      rw [if_pos hall]
    · have hemp : cur.isEmpty = false := by
        cases cur with
        | nil => exact absurd rfl hne
        | cons a t => rfl
      rw [evaluate_eq_of_loop n infeas objs sols best cur hall, hemp]
      rw [evaluateLoop_no_strict n infeas objs _ best
        (fun j hj hf => hns j (List.mem_range.mp hj) hf)]
  · intro hne hch
    rcases Bool.eq_false_or_eq_true (infeas.all (fun b => b)) with hall | hall
    · exact absurd (by unfold evaluate; rw [if_pos hall]) hch
    · have hemp : cur.isEmpty = false := by
        cases cur with
        | nil => exact absurd rfl hne
        | cons a t => rfl
      rw [evaluate_eq_of_loop n infeas objs sols best cur hall, hemp] at hch ⊢
      rcases hE : evaluateLoop n infeas objs (List.range objs.length) none
          best false with ⟨bi, bv⟩
      rcases bi with _ | i
      · rw [hE] at hch
        exact absurd rfl hch
      · have hs := evaluateLoop_some_spec n heps infeas objs best false
          (fun j => j < objs.length) (List.range objs.length)
          (fun j hj => List.mem_range.mp hj) none best (fun _ => rfl)
          (fun i0 h0 => by simp at h0) i (by rw [hE])
        have hmin := evaluateLoop_minimal n heps infeas objs
          (List.range objs.length) none best false
        rw [hE] at hmin hs
        obtain ⟨hi, hfi, hbv, hlt⟩ := hs
        refine ⟨i, hi, hfi, hbv ▸ hlt rfl, by simpa using hbv, ?_⟩
        intro j hj hfj
        have := hmin j (List.mem_range.mpr hj) hfj
        rwa [hbv] at this
  · intro hcur hex
    have hall : infeas.all (fun b => b) = false := by
      rcases Bool.eq_false_or_eq_true (infeas.all (fun b => b)) with h | h
      · obtain ⟨i, hi, hfi⟩ := hex
        have hilen : i < infeas.length := by omega
        have hmem : infeas.getD i true ∈ infeas := by
          rw [List.getD_eq_getElem _ _ hilen]
          exact List.getElem_mem _
        have h2 := List.all_eq_true.mp h _ hmem
        rw [hfi] at h2
        simp at h2
      · exact h
    have hemp : cur.isEmpty = true := by rw [hcur]; rfl
    rw [evaluate_eq_of_loop n infeas objs sols best cur hall, hemp]
    rcases hE : evaluateLoop n infeas objs (List.range objs.length) none
        best true with ⟨bi, bv⟩
    rcases bi with _ | i
    · exact absurd (by rw [hE]) (evaluateLoop_empty_finds n infeas objs
        (List.range objs.length) best
        (by obtain ⟨i, hi, hfi⟩ := hex
            exact ⟨i, List.mem_range.mpr hi, hfi⟩))
    · have hs := evaluateLoop_some_spec n heps infeas objs best true
        (fun j => j < objs.length) (List.range objs.length)
        (fun j hj => List.mem_range.mp hj) none best (fun _ => rfl)
        (fun i0 h0 => by simp at h0) i (by rw [hE])
      have hmin := evaluateLoop_minimal n heps infeas objs
        (List.range objs.length) none best true
      rw [hE] at hmin hs
      obtain ⟨hi, hfi, hbv, _⟩ := hs
      refine ⟨i, hi, hfi, by simpa using hbv, ?_⟩
      intro j hj hfj
      have := hmin j (List.mem_range.mpr hj) hfj
      rwa [hbv] at this

/-- C6, counterexample.  The claim says best_obj_val and
current_best_solution are overwritten ONLY when the selected candidate is
kernel-strictly better.  With an empty incumbent (current_best_solution
empty) and best_obj_val 0, a single feasible candidate of objective 5 is
adopted by the empty-incumbent clause of Heuristic.hpp line 279 although 5
is not kernel-below 0: both outputs are overwritten. -/
theorem heuristic_evaluate_counterexample :
    evaluate stdNum [false] [5] [[1]] 0 [] = (5, [1]) ∧
    ¬ stdNum.isLT 5 0 := by
  constructor
  · have h1 : evaluateLoop stdNum [false] [5]
        (List.range ([5] : List ℚ).length) none 0
        ([] : List ℚ).isEmpty = (some 0, 5) := by
      norm_num [List.range_succ, evaluateLoop, feasAt]
    rw [evaluate_eq_of_loop _ _ _ _ _ _ (by norm_num), h1]
    rfl
  · norm_num [Num.isLT, stdNum, tol]

/-- Witness for heuristic_evaluate_amended on a one-strategy instance with
an existing incumbent. -/
theorem heuristic_evaluate_amended_witness :
    (0 ≤ stdNum.eps ∧ ([false] : List Bool).length =
      ([3] : List ℚ).length) ∧
    ((([false] : List Bool).all (fun b => b) = true →
      evaluate stdNum [false] [3] [[1]] 10 [5] = (10, [5])) ∧
    (([5] : List ℚ) ≠ [] →
      (∀ j < ([3] : List ℚ).length, feasAt [false] j →
        ¬ stdNum.isLT (([3] : List ℚ).getD j 0) 10) →
      evaluate stdNum [false] [3] [[1]] 10 [5] = (10, [5])) ∧
    (([5] : List ℚ) ≠ [] →
      evaluate stdNum [false] [3] [[1]] 10 [5] ≠ (10, [5]) →
      ∃ i < ([3] : List ℚ).length, feasAt [false] i ∧
        stdNum.isLT (([3] : List ℚ).getD i 0) 10 ∧
        evaluate stdNum [false] [3] [[1]] 10 [5] =
          (([3] : List ℚ).getD i 0, ([[1]] : List (List ℚ)).getD i []) ∧
        ∀ j < ([3] : List ℚ).length, feasAt [false] j →
          ¬ stdNum.isLT (([3] : List ℚ).getD j 0)
            (([3] : List ℚ).getD i 0)) ∧
    (([5] : List ℚ) = [] → (∃ i < ([3] : List ℚ).length, feasAt [false] i) →
      ∃ i < ([3] : List ℚ).length, feasAt [false] i ∧
        evaluate stdNum [false] [3] [[1]] 10 [5] =
          (([3] : List ℚ).getD i 0, ([[1]] : List (List ℚ)).getD i []) ∧
        ∀ j < ([3] : List ℚ).length, feasAt [false] j →
          ¬ stdNum.isLT (([3] : List ℚ).getD j 0)
            (([3] : List ℚ).getD i 0))) :=
  ⟨⟨by norm_num [stdNum, tol], by norm_num⟩,
    heuristic_evaluate_amended stdNum (by norm_num [stdNum, tol]) [false]
      [3] [[1]] 10 [5] (by norm_num)⟩

/-- calculate_obj_value (Heuristic.hpp lines 303-311). -/
def calculateObjValue (coeffs sol : List ℚ) : ℚ :=
  stableSum ((List.range sol.length).map
    (fun j => vecAt sol j * vecAt coeffs j))

/-- A fresh probing view over a base problem (the state of views[i] right
after reset()). -/
def mkView (bp : BaseProblem) : PView :=
  ⟨bp, bp.lbs, bp.ubs, bp.lbInf, bp.ubInf, [], false⟩

/-- Prepend a visited column to the visit trace of a loop result. -/
def consVisit (j : ℕ) :
    Option (List ℚ × ℚ × List ℕ) → Option (List ℚ × ℚ × List ℕ)
  | none => none
  | some (s, o, vis) => some (s, o, j :: vis)

/-- The per-strategy column scan of Heuristic::perform_one_opt
(Heuristic.hpp lines 186-254), returning the final solution, its tracked
objective value, and the trace of visited columns - the columns that pass
the zero-coefficient break (line 190) and the binary-integrality filter
(lines 192-195), in the order the loop reaches them.  Faithfully to the
source, the loop index j is used directly as a column index: the
cols_sorted_by_obj array built in setup() is never consulted.  The dead
double-check of lines 227-229 (if isZero then if not isZero continue)
never skips and is omitted.  The view is freshly reset before each attempt
(line 189); one_opt outcomes of the form (false, no result) cannot occur
and map to none.  Note the unconditional break at line 252: a visited
column with negative coefficient whose flip propagates feasibly ends the
scan. -/
def oneOptPassLoop (n : Num) (bp : BaseProblem) :
    List ℕ → List ℚ → ℚ → Option (List ℚ × ℚ × List ℕ)
  | [], sol, objv => some (sol, objv, [])
  | j :: rest, sol, objv =>
    if n.isZero (vecAt bp.obj j) then some (sol, objv, [])
    else if ¬ flagAt bp.integral j ∨ vecAt bp.lbs j ≠ 0 ∨
        vecAt bp.ubs j ≠ 1 then
      oneOptPassLoop n bp rest sol objv
    else if n.isGT (vecAt bp.obj j) 0 then
      if n.isZero (vecAt sol j) then
        consVisit j (oneOptPassLoop n bp rest sol objv)
      else
        match oneOpt n sol j 0 (mkView bp) with
        | none => none
        | some (true, _, _) => consVisit j (oneOptPassLoop n bp rest sol objv)
        | some (false, none, _) => none
        | some (false, some result, _) =>
          if n.isLT (calculateObjValue bp.obj result) objv then
            consVisit j (oneOptPassLoop n bp rest result
              (calculateObjValue bp.obj result))
          else consVisit j (oneOptPassLoop n bp rest sol objv)
    else
      match oneOpt n sol j 1 (mkView bp) with
      | none => none
      | some (true, _, _) => consVisit j (oneOptPassLoop n bp rest sol objv)
      | some (false, none, _) => none
      | some (false, some result, _) =>
        if n.isLT (calculateObjValue bp.obj result) objv then
          some (result, calculateObjValue bp.obj result, [j])
        else some (sol, objv, [j])

/-- The one-opt pass for one strategy, started the way
perform_fix_and_propagate leaves the state: obj_value holds the objective
of the strategy's integer solution (Heuristic.hpp lines 145-148) and the
scan runs over all column indices. -/
def performOneOptPass (n : Num) (bp : BaseProblem) (sol : List ℚ) :
    Option (List ℚ × ℚ × List ℕ) :=
  oneOptPassLoop n bp (List.range bp.obj.length) sol
    (calculateObjValue bp.obj sol)

theorem consVisit_eq_some {j : ℕ} {x : Option (List ℚ × ℚ × List ℕ)}
    {out : List ℚ × ℚ × List ℕ} (h : consVisit j x = some out) :
    ∃ s o vis, x = some (s, o, vis) ∧ out = (s, o, j :: vis) := by
  match x with
  | none => simp [consVisit] at h
  | some (s, o, vis) =>
    refine ⟨s, o, vis, rfl, ?_⟩
    simpa [consVisit] using h.symm

theorem oneOptPassLoop_monotone (n : Num) (heps : 0 ≤ n.eps)
    (bp : BaseProblem) (L : List ℕ) :
    ∀ sol objv out, objv = calculateObjValue bp.obj sol →
      oneOptPassLoop n bp L sol objv = some out →
      out.2.1 = calculateObjValue bp.obj out.1 ∧ out.2.1 ≤ objv := by
  induction L with
  | nil =>
    intro sol objv out hinv h
    simp only [oneOptPassLoop, Option.some.injEq] at h
    subst h
    exact ⟨hinv, le_refl _⟩
  | cons j rest ih =>
    intro sol objv out hinv h
    simp only [oneOptPassLoop] at h
    split at h
    · simp only [Option.some.injEq] at h
      subst h
      exact ⟨hinv, le_refl _⟩
    · split at h
      · exact ih sol objv out hinv h
      · split at h
        · split at h
          · obtain ⟨s, o, vis, hx, hout⟩ := consVisit_eq_some h
            obtain ⟨h1, h2⟩ := ih sol objv (s, o, vis) hinv hx
            subst hout
            exact ⟨h1, h2⟩
          · split at h
            · exact absurd h (by simp)
            · obtain ⟨s, o, vis, hx, hout⟩ := consVisit_eq_some h
              obtain ⟨h1, h2⟩ := ih sol objv (s, o, vis) hinv hx
              subst hout
              exact ⟨h1, h2⟩
            · exact absurd h (by simp)
            · split at h
              · rename_i hlt
                obtain ⟨s, o, vis, hx, hout⟩ := consVisit_eq_some h
                obtain ⟨h1, h2⟩ := ih _ _ (s, o, vis) rfl hx
                subst hout
                refine ⟨h1, ?_⟩
                simp only [Num.isLT] at hlt
                linarith
              · obtain ⟨s, o, vis, hx, hout⟩ := consVisit_eq_some h
                obtain ⟨h1, h2⟩ := ih sol objv (s, o, vis) hinv hx
                subst hout
                exact ⟨h1, h2⟩
        · split at h
          · exact absurd h (by simp)
          · obtain ⟨s, o, vis, hx, hout⟩ := consVisit_eq_some h
            obtain ⟨h1, h2⟩ := ih sol objv (s, o, vis) hinv hx
            subst hout
            exact ⟨h1, h2⟩
          · exact absurd h (by simp)
          · split at h
            · rename_i hlt
              simp only [Option.some.injEq] at h
              subst h
              refine ⟨rfl, ?_⟩
              simp only [Num.isLT] at hlt
              linarith
            · simp only [Option.some.injEq] at h
              subst h
              exact ⟨hinv, le_refl _⟩

theorem oneOptPassLoop_visits_sublist (n : Num) (bp : BaseProblem)
    (L : List ℕ) :
    ∀ sol objv out, oneOptPassLoop n bp L sol objv = some out →
      out.2.2.Sublist L := by
  induction L with
  | nil =>
    intro sol objv out h
    simp only [oneOptPassLoop, Option.some.injEq] at h
    subst h
    simp
  | cons j rest ih =>
    intro sol objv out h
    simp only [oneOptPassLoop] at h
    split at h
    · simp only [Option.some.injEq] at h
      subst h
      simp
    · split at h
      · exact (ih sol objv out h).cons j
      · split at h
        · split at h
          · obtain ⟨s, o, vis, hx, hout⟩ := consVisit_eq_some h
            subst hout
            exact (ih _ _ _ hx).cons₂ j
          · split at h
            · exact absurd h (by simp)
            · obtain ⟨s, o, vis, hx, hout⟩ := consVisit_eq_some h
              subst hout
              exact (ih _ _ _ hx).cons₂ j
            · exact absurd h (by simp)
            · split at h
              · obtain ⟨s, o, vis, hx, hout⟩ := consVisit_eq_some h
                subst hout
                exact (ih _ _ _ hx).cons₂ j
              · obtain ⟨s, o, vis, hx, hout⟩ := consVisit_eq_some h
                subst hout
                exact (ih _ _ _ hx).cons₂ j
        · split at h
          · exact absurd h (by simp)
          · obtain ⟨s, o, vis, hx, hout⟩ := consVisit_eq_some h
            subst hout
            exact (ih _ _ _ hx).cons₂ j
          · exact absurd h (by simp)
          · split at h
            · simp only [Option.some.injEq] at h
              subst h
              simp
            · simp only [Option.some.injEq] at h
              subst h
              simp

theorem oneOptPassLoop_visits_props (n : Num) (bp : BaseProblem)
    (L : List ℕ) :
    ∀ sol objv out, oneOptPassLoop n bp L sol objv = some out →
      ∀ j ∈ out.2.2, flagAt bp.integral j = true ∧ vecAt bp.lbs j = 0 ∧
        vecAt bp.ubs j = 1 ∧ ¬ n.isZero (vecAt bp.obj j) := by
  induction L with
  | nil =>
    intro sol objv out h
    simp only [oneOptPassLoop, Option.some.injEq] at h
    subst h
    intro j hj
    simp at hj
  | cons j0 rest ih =>
    intro sol objv out h
    simp only [oneOptPassLoop] at h
    split at h
    · simp only [Option.some.injEq] at h
      subst h
      intro j hj
      simp at hj
    · rename_i hz
      split at h
      · exact ih sol objv out h
      rename_i hfil
      have hprops : flagAt bp.integral j0 = true ∧ vecAt bp.lbs j0 = 0 ∧
          vecAt bp.ubs j0 = 1 ∧ ¬ n.isZero (vecAt bp.obj j0) := by
        push_neg at hfil
        exact ⟨hfil.1, hfil.2.1, hfil.2.2, hz⟩
      split at h
      · split at h
        · obtain ⟨s, o, vis, hx, hout⟩ := consVisit_eq_some h
          subst hout
          intro j hj
          rcases List.mem_cons.mp hj with rfl | hjr
          · exact hprops
          · exact ih _ _ _ hx j hjr
        · split at h
          · exact absurd h (by simp)
          · obtain ⟨s, o, vis, hx, hout⟩ := consVisit_eq_some h
            subst hout
            intro j hj
            rcases List.mem_cons.mp hj with rfl | hjr
            · exact hprops
            · exact ih _ _ _ hx j hjr
          · exact absurd h (by simp)
          · split at h
            · obtain ⟨s, o, vis, hx, hout⟩ := consVisit_eq_some h
              subst hout
              intro j hj
              rcases List.mem_cons.mp hj with rfl | hjr
              · exact hprops
              · exact ih _ _ _ hx j hjr
            · obtain ⟨s, o, vis, hx, hout⟩ := consVisit_eq_some h
              subst hout
              intro j hj
              rcases List.mem_cons.mp hj with rfl | hjr
              · exact hprops
              · exact ih _ _ _ hx j hjr
      · split at h
        · exact absurd h (by simp)
        · obtain ⟨s, o, vis, hx, hout⟩ := consVisit_eq_some h
          subst hout
          intro j hj
          rcases List.mem_cons.mp hj with rfl | hjr
          · exact hprops
          · exact ih _ _ _ hx j hjr
        · exact absurd h (by simp)
        · split at h
          · simp only [Option.some.injEq] at h
            subst h
            intro j hj
            rcases List.mem_cons.mp hj with rfl | hjr
            · exact hprops
            · simp at hjr
          · simp only [Option.some.injEq] at h
            subst h
            intro j hj
            rcases List.mem_cons.mp hj with rfl | hjr
            · exact hprops
            · simp at hjr

theorem oneOptPassLoop_zero_stop (n : Num) (bp : BaseProblem) (L : List ℕ)
    (hsort : L.Pairwise (· < ·)) :
    ∀ sol objv out, oneOptPassLoop n bp L sol objv = some out →
      ∀ j ∈ out.2.2, ∀ z ∈ L, z ≤ j → ¬ n.isZero (vecAt bp.obj z) := by
  induction L with
  | nil =>
    intro sol objv out h j hj
    simp only [oneOptPassLoop, Option.some.injEq] at h
    subst h
    simp at hj
  | cons j0 rest ih =>
    intro sol objv out h j hj z hz hzj
    have hlt0 : ∀ z0 ∈ rest, j0 < z0 := fun z0 hz0 =>
      (List.pairwise_cons.mp hsort).1 z0 hz0
    have hrest : rest.Pairwise (· < ·) := (List.pairwise_cons.mp hsort).2
    simp only [oneOptPassLoop] at h
    split at h
    · simp only [Option.some.injEq] at h
      subst h
      simp at hj
    · rename_i hz0
      have hcase : ∀ (vis : List ℕ), j ∈ j0 :: vis →
          (∀ j1 ∈ vis, ∀ z1 ∈ rest, z1 ≤ j1 →
            ¬ n.isZero (vecAt bp.obj z1)) →
          ¬ n.isZero (vecAt bp.obj z) := by
        intro vis hjv hvis
        rcases List.mem_cons.mp hz with rfl | hzr
        · exact hz0
        · rcases List.mem_cons.mp hjv with rfl | hjr
          · exact absurd hzj (by
              have := hlt0 z hzr
              omega)
          · exact hvis j hjr z hzr hzj
      split at h
      · rcases List.mem_cons.mp hz with rfl | hzr
        · exact hz0
        · exact ih hrest sol objv out h j hj z hzr hzj
      · split at h
        · split at h
          · obtain ⟨s, o, vis, hx, hout⟩ := consVisit_eq_some h
            subst hout
            exact hcase vis hj (fun j1 hj1 z1 hz1 hzj1 =>
              ih hrest _ _ _ hx j1 hj1 z1 hz1 hzj1)
          · split at h
            · exact absurd h (by simp)
            · obtain ⟨s, o, vis, hx, hout⟩ := consVisit_eq_some h
              subst hout
              exact hcase vis hj (fun j1 hj1 z1 hz1 hzj1 =>
                ih hrest _ _ _ hx j1 hj1 z1 hz1 hzj1)
            · exact absurd h (by simp)
            · split at h
              · obtain ⟨s, o, vis, hx, hout⟩ := consVisit_eq_some h
                subst hout
                exact hcase vis hj (fun j1 hj1 z1 hz1 hzj1 =>
                  ih hrest _ _ _ hx j1 hj1 z1 hz1 hzj1)
              · obtain ⟨s, o, vis, hx, hout⟩ := consVisit_eq_some h
                subst hout
                exact hcase vis hj (fun j1 hj1 z1 hz1 hzj1 =>
                  ih hrest _ _ _ hx j1 hj1 z1 hz1 hzj1)
        · split at h
          · exact absurd h (by simp)
          · obtain ⟨s, o, vis, hx, hout⟩ := consVisit_eq_some h
            subst hout
            exact hcase vis hj (fun j1 hj1 z1 hz1 hzj1 =>
              ih hrest _ _ _ hx j1 hj1 z1 hz1 hzj1)
          · exact absurd h (by simp)
          · split at h
            · simp only [Option.some.injEq] at h
              subst h
              exact hcase [] hj (fun j1 hj1 => by simp at hj1)
            · simp only [Option.some.injEq] at h
              subst h
              exact hcase [] hj (fun j1 hj1 => by simp at hj1)

/-- C8: the one-opt pass never worsens the objective: for every base
problem and input solution, when the pass completes, the objective value of
the held solution is at most the objective value of the input solution, and
the tracked obj_value matches the held solution (each flip is adopted only
when its recomputed objective is kernel-strictly lower, Heuristic.hpp lines
215-222 and 244-251).  The quantification is over every outcome of the
probing attempts, so feasibility of the input is not needed for the bound. -/
theorem heuristic_one_opt_monotone (n : Num) (heps : 0 ≤ n.eps)
    (bp : BaseProblem) (sol : List ℚ) (out : List ℚ × ℚ × List ℕ)
    (h : performOneOptPass n bp sol = some out) :
    calculateObjValue bp.obj out.1 ≤ calculateObjValue bp.obj sol ∧
      out.2.1 = calculateObjValue bp.obj out.1 := by
  obtain ⟨h1, h2⟩ := oneOptPassLoop_monotone n heps bp
    (List.range bp.obj.length) sol (calculateObjValue bp.obj sol) out rfl h
  exact ⟨h1 ▸ h2, h1⟩

/-- A base problem with one binary column of objective 1 and no rows. -/
def oneColProblem : BaseProblem :=
  ⟨[1], [], [0], [1], [false], [false], [true]⟩

/-- Witness for heuristic_one_opt_monotone: on the one-column problem with
input solution (0), the pass completes with objective 0 at most 0. -/
theorem heuristic_one_opt_monotone_witness :
    (0 ≤ stdNum.eps ∧
      performOneOptPass stdNum oneColProblem [0] = some ([0], 0, [0])) ∧
    (calculateObjValue oneColProblem.obj
        (([0], (0 : ℚ), [0]) : List ℚ × ℚ × List ℕ).1 ≤
      calculateObjValue oneColProblem.obj [0] ∧
      (([0], (0 : ℚ), [0]) : List ℚ × ℚ × List ℕ).2.1 =
        calculateObjValue oneColProblem.obj
          (([0], (0 : ℚ), [0]) : List ℚ × ℚ × List ℕ).1) :=
  have hrun : performOneOptPass stdNum oneColProblem [0] =
      some ([0], 0, [0]) := by
    norm_num [performOneOptPass, oneOptPassLoop, oneColProblem,
      calculateObjValue, stableSum, vecAt, flagAt, List.range_succ,
      Num.isZero, Num.isGT, stdNum, tol, consVisit]
  ⟨⟨by norm_num [stdNum, tol], hrun⟩,
    heuristic_one_opt_monotone stdNum (by norm_num [stdNum, tol])
      oneColProblem [0] ([0], 0, [0]) hrun⟩

/-- Ranking by strictly larger objective magnitude, the order the claim
asserts for the one-opt scan. -/
def objMagGT (bp : BaseProblem) (a b : ℕ) : Prop :=
  |vecAt bp.obj b| < |vecAt bp.obj a|

instance (bp : BaseProblem) : DecidableRel (objMagGT bp) := by
  unfold objMagGT; infer_instance

/-- The visit order the claim describes: the integral binary columns with
non-zero objective coefficient, sorted by decreasing objective magnitude. -/
def sortedByObjMagnitude (n : Num) (bp : BaseProblem) : List ℕ :=
  List.insertionSort (objMagGT bp)
    ((List.range bp.obj.length).filter (fun j =>
      flagAt bp.integral j && decide (vecAt bp.lbs j = 0) &&
      decide (vecAt bp.ubs j = 1) && ! decide (n.isZero (vecAt bp.obj j))))

/-- Two binary columns with objective coefficients 1 and 5 and no rows. -/
def twoColProblem : BaseProblem :=
  ⟨[1, 5], [], [0, 0], [1, 1], [false, false], [false, false],
    [true, true]⟩

/-- C7, counterexample.  On two binary columns with objective coefficients
(1, 5), the claimed decreasing-magnitude order visits column 1 before
column 0, but perform_one_opt uses the loop index j directly as the column
index (Heuristic.hpp lines 190-196; the cols_sorted_by_obj array built in
setup is never read), so the scan visits column 0 first. -/
theorem heuristic_one_opt_order_counterexample :
    performOneOptPass stdNum twoColProblem [0, 0] =
      some ([0, 0], 0, [0, 1]) ∧
    sortedByObjMagnitude stdNum twoColProblem = [1, 0] ∧
    ([0, 1] : List ℕ) ≠ [1, 0] := by
  refine ⟨?_, ?_, by simp⟩
  · norm_num [performOneOptPass, oneOptPassLoop, twoColProblem,
      calculateObjValue, stableSum, vecAt, flagAt, List.range_succ,
      Num.isZero, Num.isGT, stdNum, tol, consVisit]
  · norm_num [sortedByObjMagnitude, twoColProblem, List.range_succ,
      flagAt, vecAt, Num.isZero, stdNum, tol, List.insertionSort,
      List.orderedInsert, objMagGT]

/-- C7, amended claim: the scan of perform_one_opt visits only integral
binary columns with non-zero objective coefficient, in increasing
column-index order (the decreasing-objective order prepared in setup is
never used), and never visits a column at or beyond the first column in
index order whose objective coefficient is kernel-zero (the break at
Heuristic.hpp line 190).  The scan may also end early at a visited
negative-coefficient column (the break at line 252). -/
theorem heuristic_one_opt_visit_order (n : Num) (bp : BaseProblem)
    (sol : List ℚ) (out : List ℚ × ℚ × List ℕ)
    (h : performOneOptPass n bp sol = some out) :
    List.Pairwise (· < ·) out.2.2 ∧
    (∀ j ∈ out.2.2, flagAt bp.integral j = true ∧ vecAt bp.lbs j = 0 ∧
      vecAt bp.ubs j = 1 ∧ ¬ n.isZero (vecAt bp.obj j)) ∧
    (∀ j ∈ out.2.2, ∀ z ≤ j, ¬ n.isZero (vecAt bp.obj z)) := by
  refine ⟨?_, ?_, ?_⟩
  · exact List.Pairwise.sublist
      (oneOptPassLoop_visits_sublist n bp (List.range bp.obj.length) sol
        (calculateObjValue bp.obj sol) out h)
      (List.pairwise_lt_range _)
  · exact oneOptPassLoop_visits_props n bp (List.range bp.obj.length) sol
      (calculateObjValue bp.obj sol) out h
  · intro j hj z hzj
    have hjR : j ∈ List.range bp.obj.length :=
      (oneOptPassLoop_visits_sublist n bp (List.range bp.obj.length) sol
        (calculateObjValue bp.obj sol) out h).mem hj
    have hzR : z ∈ List.range bp.obj.length := by
      rw [List.mem_range] at hjR ⊢
      omega
    exact oneOptPassLoop_zero_stop n bp (List.range bp.obj.length)
      (List.pairwise_lt_range _) sol (calculateObjValue bp.obj sol) out h
      j hj z hzR hzj

/-- Witness for heuristic_one_opt_visit_order on the one-column problem. -/
theorem heuristic_one_opt_visit_order_witness :
    performOneOptPass stdNum oneColProblem [0] = some ([0], 0, [0]) ∧
    (List.Pairwise (· < ·)
        (([0], (0 : ℚ), [0]) : List ℚ × ℚ × List ℕ).2.2 ∧
    (∀ j ∈ (([0], (0 : ℚ), [0]) : List ℚ × ℚ × List ℕ).2.2,
      flagAt oneColProblem.integral j = true ∧
      vecAt oneColProblem.lbs j = 0 ∧ vecAt oneColProblem.ubs j = 1 ∧
      ¬ stdNum.isZero (vecAt oneColProblem.obj j)) ∧
    (∀ j ∈ (([0], (0 : ℚ), [0]) : List ℚ × ℚ × List ℕ).2.2, ∀ z ≤ j,
      ¬ stdNum.isZero (vecAt oneColProblem.obj z))) :=
  have hrun : performOneOptPass stdNum oneColProblem [0] =
      some ([0], 0, [0]) := by
    norm_num [performOneOptPass, oneOptPassLoop, oneColProblem,
      calculateObjValue, stableSum, vecAt, flagAt, List.range_succ,
      Num.isZero, Num.isGT, stdNum, tol, consVisit]
  ⟨hrun, heuristic_one_opt_visit_order stdNum oneColProblem [0]
    ([0], 0, [0]) hrun⟩

/-! ## The reformulation for the Volume Algorithm (src/src/StartMipComp.cpp) -/

/-- An input row of modify_problem: entries, sides, and the RowFlag bits
kLhsInf, kRhsInf and kEquation. -/
structure MRow where
  ents : SparseRow
  lhs : ℚ
  rhs : ℚ
  lhsInf : Bool
  rhsInf : Bool
  equation : Bool

/-- The row system of the problem handed to modify_problem (the column
setup of lines 181-193 copies bounds and objective unchanged and is not at
issue in the claim). -/
structure MProblem where
  rows : List MRow

/-- A row built by the ProblemBuilder: entries, both side values and both
side infinity flags as set by modify_problem. -/
structure BRow where
  ents : SparseRow
  lhs : ℚ
  rhs : ℚ
  lhsInf : Bool
  rhsInf : Bool

/-- invert (StartMipComp.cpp lines 260-265): negate the coefficients. -/
def invertRow (r : SparseRow) : SparseRow := r.map (fun e => (e.1, -e.2))

/-- The coefficients modify_problem reads for EVERY output row: the source
calls getRowCoefficients(0) at lines 200-205 instead of
getRowCoefficients(i), so row 0's entries are used throughout. -/
def row0ents (P : MProblem) : SparseRow :=
  (P.rows.headD ⟨[], 0, 0, false, false, false⟩).ents

/-- The row count modify_problem reserves (first loop, lines 161-177): one
row, plus a second one for every row that is not an equation and has both
sides finite. -/
def modifyNRows (P : MProblem) : ℕ :=
  P.rows.foldl
    (fun acc r =>
      acc + (if r.equation || r.lhsInf || r.rhsInf then 1 else 2)) 0

/-- The rows modify_problem actually fills in (second loop, lines
196-256).  Branch 1 (equation OR infinite lhs): the row is copied with BOTH
side-infinity flags cleared.  Branch 2 (otherwise, finite rhs - i.e. a
ranged non-equation row): ONE inverted row -a x >= -rhs; the finite lhs is
dropped and no second row is emitted.  Branch 3 (otherwise, finite lhs): the
row becomes a x >= lhs.  The final else with the intended two-row expansion
(lines 236-254) is unreachable: reaching it requires both kLhsInf (from
failing branch 1) and, from failing branches 2 and 3, kRhsInf and not
kLhsInf.  Every branch reads row 0's entries. -/
def modifyProblemRows (P : MProblem) : List BRow :=
  P.rows.flatMap (fun r =>
    let ents := row0ents P
    if r.equation || r.lhsInf then
      [⟨ents, r.lhs, r.rhs, false, false⟩]
    else if !r.rhsInf then
      [⟨invertRow ents, -r.rhs, 0, false, true⟩]
    else if !r.lhsInf then
      [⟨ents, r.lhs, 0, false, true⟩]
    else
      [⟨invertRow ents, -r.rhs, 0, false, true⟩,
        ⟨ents, r.lhs, 0, false, true⟩])

/-- Satisfaction of an input row at a point (infinite sides bind nothing). -/
def mrowSatisfied (row : MRow) (x : List ℚ) : Prop :=
  (row.lhsInf = true ∨ row.lhs ≤ rowDot row.ents x) ∧
  (row.rhsInf = true ∨ rowDot row.ents x ≤ row.rhs)

/-- Satisfaction of a built row at a point. -/
def browSatisfied (row : BRow) (x : List ℚ) : Prop :=
  (row.lhsInf = true ∨ row.lhs ≤ rowDot row.ents x) ∧
  (row.rhsInf = true ∨ rowDot row.ents x ≤ row.rhs)

/-- The point satisfies every row of the input problem. -/
def satisfiesM (P : MProblem) (x : List ℚ) : Prop :=
  ∀ r ∈ P.rows, mrowSatisfied r x

/-- The point satisfies every row built by modify_problem. -/
def satisfiesB (rows : List BRow) (x : List ℚ) : Prop :=
  ∀ r ∈ rows, browSatisfied r x

/-- A single ranged non-equation row 0 <= 2 x0 <= 4. -/
def rangedRowProblem : MProblem :=
  ⟨[⟨[(0, 2)], 0, 4, false, false, false⟩]⟩

/-- Two equation rows over different columns: x0 = 1 and x1 = 2. -/
def twoEqProblem : MProblem :=
  ⟨[⟨[(0, 1)], 1, 1, false, false, true⟩,
    ⟨[(1, 1)], 2, 2, false, false, true⟩]⟩

/-- C2: the code contradicts the claim (and its own reservation loop).  For
the single ranged row 0 <= 2 x0 <= 4, the claim demands two >=-rows
preserving the feasibility region; the code reserves two rows but fills
only ONE (the inverted right-hand side; the two-row else branch of lines
236-254 is unreachable), dropping the lhs side entirely, so the point
x0 = -10 satisfies every built row while violating the original row.
Moreover every built row carries row 0's coefficients: with two equation
rows over different columns, the second built row repeats the entries of
the first. -/
theorem modify_problem_bug :
    (modifyProblemRows rangedRowProblem).length = 1 ∧
    modifyNRows rangedRowProblem = 2 ∧
    satisfiesB (modifyProblemRows rangedRowProblem) [-10] ∧
    ¬ satisfiesM rangedRowProblem [-10] ∧
    ((modifyProblemRows twoEqProblem).getD 1
        ⟨[], 0, 0, false, false⟩).ents = [(0, 1)] ∧
    ((twoEqProblem.rows.getD 1 ⟨[], 0, 0, false, false, false⟩).ents
      = [(1, 1)]) := by
  refine ⟨?_, ?_, ?_, ?_, ?_, ?_⟩
  · norm_num [modifyProblemRows, rangedRowProblem, row0ents, invertRow]
  · norm_num [modifyNRows, rangedRowProblem]
  · intro r hr
    simp only [modifyProblemRows, rangedRowProblem, row0ents, invertRow,
      List.flatMap_cons, List.flatMap_nil] at hr
    norm_num at hr
    subst hr
    constructor
    · norm_num [rowDot, vecAt, stableSum]
    · norm_num
  · intro hsat
    have h := hsat ⟨[(0, 2)], 0, 4, false, false, false⟩
      (by simp [rangedRowProblem])
    obtain ⟨h1, _⟩ := h
    rcases h1 with h1 | h1
    · simp at h1
    · norm_num [rowDot, vecAt, stableSum] at h1
  · norm_num [modifyProblemRows, twoEqProblem, row0ents]
  · norm_num [twoEqProblem]

/-! ## Claim C1: feasibility of the fix-and-propagate result

The conclusion predicates follow the claim: every non-redundant row's side
constraints and every column's base bounds hold at the result under the
feasibility tolerance. -/

/-- One row's side constraints hold at x under the feasibility tolerance. -/
def rowSatisfiedAt (n : Num) (row : PRow) (x : List ℚ) : Prop :=
  (row.lhsInf = true ∨ row.lhs - n.feastol ≤ rowDot row.ents x) ∧
  (row.rhsInf = true ∨ rowDot row.ents x ≤ row.rhs + n.feastol)

/-- Every non-redundant row of the base problem holds at x under the
feasibility tolerance. -/
def baseRowsSatisfied (n : Num) (bp : BaseProblem) (x : List ℚ) : Prop :=
  ∀ r ∈ bp.rows, r.redundant = false → rowSatisfiedAt n r x

/-- Every column's base bounds hold at x under the feasibility tolerance. -/
def baseBoundsSatisfied (n : Num) (bp : BaseProblem) (x : List ℚ) : Prop :=
  ∀ j < bp.ubs.length,
    (flagAt bp.lbInf j = false → vecAt bp.lbs j - n.feastol ≤ vecAt x j) ∧
    (flagAt bp.ubInf j = false → vecAt x j ≤ vecAt bp.ubs j + n.feastol)

/-- No non-redundant row of the view's base problem is violated over the
view's current bounds. -/
def detectionPass (n : Num) (pv : PView) : Prop :=
  ∀ r ∈ pv.base.rows, r.redundant = false → rowViolatedB n pv r = false

/-- The view's infinity flags are all cleared. -/
def flagsFin (pv : PView) : Prop :=
  ∀ j, flagAt pv.lbInf j = false ∧ flagAt pv.ubInf j = false

/-- The view's bounds are nested inside the base problem's bounds and
ordered, with the base lengths preserved. -/
def wBounds (pv : PView) : Prop :=
  pv.lbs.length = pv.base.lbs.length ∧
  pv.ubs.length = pv.base.ubs.length ∧
  pv.lbs.length = pv.ubs.length ∧
  ∀ j, vecAt pv.base.lbs j ≤ vecAt pv.lbs j ∧
    vecAt pv.ubs j ≤ vecAt pv.base.ubs j ∧ vecAt pv.lbs j ≤ vecAt pv.ubs j

/-- A feasible view either has an empty trail (no propagation ever ran) or
passed row detection on its current bounds. -/
def gInv (n : Num) (pv : PView) : Prop :=
  pv.infeasible = false → pv.fixings = [] ∨ detectionPass n pv

/-- The combined invariant of the no-backtracking run. -/
def dInv (n : Num) (bp : BaseProblem) (pv : PView) : Prop :=
  pv.base = bp ∧ flagsFin pv ∧ wBounds pv ∧ gInv n pv

theorem flagAt_set_false (l : List Bool) (c j : ℕ)
    (h : flagAt l j = false) : flagAt (l.set c false) j = false := by
  unfold flagAt at h ⊢
  by_cases hcj : c = j
  · subst hcj
    by_cases hc : c < l.length
    · rw [List.getD_eq_getElem?_getD, List.getElem?_set_eq_of_lt _ hc]
      rfl
    · rw [List.set_eq_of_length_le (by omega)]
      exact h
  · rw [List.getD_eq_getElem?_getD, List.getElem?_set_ne hcj,
      ← List.getD_eq_getElem?_getD]
    exact h

theorem vecAt_set_le (l : List ℚ) (c j : ℕ) (v : ℚ) :
    vecAt (l.set c v) j = vecAt l j ∨ (j = c ∧ j < l.length ∧
      vecAt (l.set c v) j = v) := by
  by_cases hcj : c = j
  · subst hcj
    by_cases hc : c < l.length
    · right
      refine ⟨rfl, hc, ?_⟩
      unfold vecAt
      rw [List.getD_eq_getElem?_getD, List.getElem?_set_eq_of_lt _ hc]
      rfl
    · left
      rw [List.set_eq_of_length_le (by omega)]
  · left
    unfold vecAt
    rw [List.getD_eq_getElem?_getD, List.getElem?_set_ne hcj,
      ← List.getD_eq_getElem?_getD]

theorem performProbingStep_base (n : Num) (pv : PView) :
    (performProbingStep n pv).2.base = pv.base := by
  unfold performProbingStep PView.propagateDomains
  split <;> rfl

theorem performProbingStep_lbs (n : Num) (pv : PView) :
    (performProbingStep n pv).2.lbs = pv.lbs := by
  unfold performProbingStep PView.propagateDomains
  split <;> rfl

theorem performProbingStep_ubs (n : Num) (pv : PView) :
    (performProbingStep n pv).2.ubs = pv.ubs := by
  unfold performProbingStep PView.propagateDomains
  split <;> rfl

theorem performProbingStep_lbInf (n : Num) (pv : PView) :
    (performProbingStep n pv).2.lbInf = pv.lbInf := by
  unfold performProbingStep PView.propagateDomains
  split <;> rfl

theorem performProbingStep_ubInf (n : Num) (pv : PView) :
    (performProbingStep n pv).2.ubInf = pv.ubInf := by
  unfold performProbingStep PView.propagateDomains
  split <;> rfl

theorem performProbingStep_gInv (n : Num) (pv : PView) :
    gInv n (performProbingStep n pv).2 := by
  unfold performProbingStep
  split
  · rename_i hinf
    intro hfeas
    rw [hfeas] at hinf
    simp at hinf
  · rename_i hinf
    intro hfeas
    right
    intro r hr hred
    unfold PView.propagateDomains at hfeas
    simp only [Bool.or_eq_false_iff] at hfeas
    have h2 := hfeas.2
    rw [List.any_eq_false] at h2
    have h3 := h2 r (by exact hr)
    simp only [Bool.not_eq_true, Bool.and_eq_false_iff] at h3
    rcases h3 with h | h
    · simp [hred] at h
    · exact h

theorem vecAt_set_self (l : List ℚ) (c : ℕ) (v : ℚ) (hc : c < l.length) :
    vecAt (l.set c v) c = v := by
  unfold vecAt
  rw [List.getD_eq_getElem?_getD, List.getElem?_set_eq_of_lt _ hc]
  rfl

theorem vecAt_set_other (l : List ℚ) (c j : ℕ) (v : ℚ) (hcj : c ≠ j) :
    vecAt (l.set c v) j = vecAt l j := by
  unfold vecAt
  rw [List.getD_eq_getElem?_getD, List.getElem?_set_ne hcj,
    ← List.getD_eq_getElem?_getD]

theorem setProbingColumn_sound (n : Num) (bp : BaseProblem) (pv : PView)
    (c : ℕ) (v : ℚ) (hbase : pv.base = bp) (hf : flagsFin pv)
    (hw : wBounds pv) (hlb : vecAt pv.lbs c ≤ v) (hub : v ≤ vecAt pv.ubs c) :
    (pv.setProbingColumn c v).base = bp ∧
      flagsFin (pv.setProbingColumn c v) ∧
      wBounds (pv.setProbingColumn c v) := by
  obtain ⟨hl1, hl2, hl3, hj⟩ := hw
  refine ⟨hbase, ?_, ?_⟩
  · intro j
    exact ⟨flagAt_set_false _ c j (hf j).1, flagAt_set_false _ c j (hf j).2⟩
  · refine ⟨by simp [PView.setProbingColumn, hl1],
      by simp [PView.setProbingColumn, hl2],
      by simp [PView.setProbingColumn, hl3], ?_⟩
    intro j
    show vecAt pv.base.lbs j ≤ vecAt (pv.lbs.set c v) j ∧
      vecAt (pv.ubs.set c v) j ≤ vecAt pv.base.ubs j ∧
      vecAt (pv.lbs.set c v) j ≤ vecAt (pv.ubs.set c v) j
    by_cases hcj : c = j
    · subst hcj
      by_cases hc : c < pv.lbs.length
      · have hc2 : c < pv.ubs.length := by omega
        rw [vecAt_set_self _ _ _ hc, vecAt_set_self _ _ _ hc2]
        exact ⟨le_trans (hj c).1 hlb, le_trans hub (hj c).2.1, le_refl v⟩
      · have hc2 : ¬ c < pv.ubs.length := by omega
        rw [List.set_eq_of_length_le (by omega),
          List.set_eq_of_length_le (by omega)]
        exact hj c
    · rw [vecAt_set_other _ _ _ _ hcj, vecAt_set_other _ _ _ _ hcj]
      exact hj j

theorem performProbingStep_sound (n : Num) (bp : BaseProblem) (pv : PView)
    (hbase : pv.base = bp) (hf : flagsFin pv) (hw : wBounds pv) :
    dInv n bp (performProbingStep n pv).2 := by
  refine ⟨by rw [performProbingStep_base, hbase], ?_, ?_,
    performProbingStep_gInv n pv⟩
  · intro j
    rw [flagAt, flagAt, performProbingStep_lbInf, performProbingStep_ubInf]
    exact hf j
  · unfold wBounds at hw ⊢
    rw [performProbingStep_lbs, performProbingStep_ubs,
      performProbingStep_base]
    exact hw

theorem isWithinBounds_le (n : Num) (pv : PView) (c : ℕ) (v : ℚ)
    (heps : n.eps = 0) (hf : flagsFin pv)
    (h : pv.isWithinBounds n c v = true) :
    vecAt pv.lbs c ≤ v ∧ v ≤ vecAt pv.ubs c := by
  unfold PView.isWithinBounds at h
  rw [(hf c).1, (hf c).2] at h
  simp only [Bool.false_or, Bool.and_eq_true, decide_eq_true_eq] at h
  unfold Num.isGE Num.isLE at h
  rw [heps] at h
  constructor
  · linarith [h.1]
  · linarith [h.2]

theorem diveLoop_dInv (n : Num) (bp : BaseProblem) (strat : Strategy)
    (cont : List ℚ) (stop : Bool) (heps : n.eps = 0) :
    ∀ fuel pv pv1, dInv n bp pv →
      diveLoop n strat cont stop fuel pv = some pv1 → dInv n bp pv1 := by
  intro fuel
  induction fuel with
  | zero => intro pv pv1 _ h; simp [diveLoop] at h
  | succ k ih =>
    intro pv pv1 hD h
    simp only [diveLoop] at h
    obtain ⟨hbase, hf, hw, hg⟩ := hD
    match hs : strat cont pv with
    | none =>
      rw [hs] at h
      simp only [Option.some.injEq] at h
      subst h
      exact ⟨hbase, hf, hw, hg⟩
    | some (c, v) =>
      rw [hs] at h
      dsimp only [] at h
      split at h
      · rename_i hwb
        obtain ⟨hlb, hub⟩ := isWithinBounds_le n pv c v heps hf hwb
        obtain ⟨hb2, hf2, hw2⟩ :=
          setProbingColumn_sound n bp pv c v hbase hf hw hlb hub
        have hD2 : dInv n bp
            (performProbingStep n (pv.setProbingColumn c v)).2 := by
          apply performProbingStep_sound n bp _ hb2 hf2 hw2
        split at h
        · simp only [Option.some.injEq] at h
          subst h
          exact hD2
        · exact ih _ _ hD2 h
      · simp at h

theorem fixRemainingValue_bounds (n : Num) (cont : List ℚ) (pv : PView)
    (i : ℕ) (v : ℚ) (heps : n.eps = 0) (hw : wBounds pv)
    (h : fixRemainingValue n cont pv i = some v) :
    vecAt pv.lbs i ≤ v ∧ v ≤ vecAt pv.ubs i := by
  have hord := (hw.2.2.2 i).2.2
  unfold fixRemainingValue at h
  dsimp only [] at h
  split at h
  · split at h
    · rename_i hio
      split at h
      · simp only [Option.some.injEq] at h
        subst h
        unfold Num.isGE Num.isLE at hio
        rw [heps] at hio
        constructor
        · linarith [hio.1]
        · linarith [hio.2]
      · simp at h
    · split at h
      · simp only [Option.some.injEq] at h
        subst h
        exact ⟨hord, le_refl _⟩
      · split at h
        · simp only [Option.some.injEq] at h
          subst h
          exact ⟨le_refl _, hord⟩
        · simp at h
  · split at h
    · rename_i hio
      simp only [Option.some.injEq] at h
      subst h
      unfold Num.isGE Num.isLE at hio
      rw [heps] at hio
      constructor
      · linarith [hio.1]
      · linarith [hio.2]
    · split at h
      · simp only [Option.some.injEq] at h
        subst h
        exact ⟨hord, le_refl _⟩
      · split at h
        · simp only [Option.some.injEq] at h
          subst h
          exact ⟨le_refl _, hord⟩
        · simp at h

theorem fixRemainingLoop_dInv (n : Num) (bp : BaseProblem) (cont : List ℚ)
    (heps : n.eps = 0) :
    ∀ L pv pv1, dInv n bp pv →
      fixRemainingLoop n cont L pv = some pv1 → dInv n bp pv1 := by
  intro L
  induction L with
  | nil =>
    intro pv pv1 hD h
    simp only [fixRemainingLoop, Option.some.injEq] at h
    subst h
    exact hD
  | cons i rest ih =>
    intro pv pv1 hD h
    obtain ⟨hbase, hf, hw, hg⟩ := hD
    simp only [fixRemainingLoop] at h
    split at h
    · exact ih _ _ ⟨hbase, hf, hw, hg⟩ h
    · match hv : fixRemainingValue n cont pv i with
      | none => rw [hv] at h; simp at h
      | some v =>
        rw [hv] at h
        obtain ⟨hlb, hub⟩ := fixRemainingValue_bounds n cont pv i v heps hw hv
        obtain ⟨hb2, hf2, hw2⟩ :=
          setProbingColumn_sound n bp pv i v hbase hf hw hlb hub
        exact ih _ _ (performProbingStep_sound n bp _ hb2 hf2 hw2) h

theorem createSolution_spec (n : Num) (pv : PView) (res : List ℚ)
    (h : createSolution n pv = some res) :
    res = pv.ubs ∧ ∀ i < pv.ubs.length,
      n.isEq (vecAt pv.ubs i) (vecAt pv.lbs i) := by
  unfold createSolution at h
  split at h
  · rename_i hall
    simp only [Option.some.injEq] at h
    subst h
    refine ⟨rfl, ?_⟩
    intro i hi
    have := List.all_eq_true.mp hall i (List.mem_range.mpr hi)
    exact of_decide_eq_true this
  · simp at h

theorem view_fixed_pointwise (n : Num) (pv : PView) (heps : n.eps = 0)
    (hlen2 : pv.lbs.length = pv.ubs.length)
    (hall : ∀ i < pv.ubs.length, n.isEq (vecAt pv.ubs i) (vecAt pv.lbs i)) :
    ∀ i, vecAt pv.ubs i = vecAt pv.lbs i := by
  intro i
  by_cases hi : i < pv.ubs.length
  · have := hall i hi
    unfold Num.isEq at this
    rw [heps] at this
    have h2 : vecAt pv.ubs i - vecAt pv.lbs i = 0 := by
      rcases abs_le.mp this with ⟨h1, h2⟩
      linarith
    linarith [h2]
  · have hl : ¬ i < pv.lbs.length := by
      omega
    unfold vecAt
    rw [List.getD_eq_default _ _ (by omega), List.getD_eq_default _ _ (by omega)]

theorem rowActs_fixed (n : Num) (pv : PView) (hf : flagsFin pv)
    (hfix : ∀ i, vecAt pv.ubs i = vecAt pv.lbs i) :
    ∀ r : SparseRow, rowMinAct pv r = some (rowDot r pv.ubs) ∧
      rowMaxAct pv r = some (rowDot r pv.ubs) := by
  intro r
  induction r with
  | nil =>
    constructor <;> simp [rowMinAct, rowMaxAct, rowDot, stableSum]
  | cons e t ih =>
    have hmin : entMinContrib pv e = some (e.2 * vecAt pv.ubs e.1) := by
      unfold entMinContrib
      rcases lt_trichotomy e.2 0 with hneg | hzero | hpos
      · rw [if_neg (by linarith), if_pos hneg, (hf e.1).2]
        rfl
      · rw [if_neg (by linarith), if_neg (by linarith), hzero, zero_mul]
      · rw [if_pos hpos, (hf e.1).1, hfix e.1]
        rfl
    have hmax : entMaxContrib pv e = some (e.2 * vecAt pv.ubs e.1) := by
      unfold entMaxContrib
      rcases lt_trichotomy e.2 0 with hneg | hzero | hpos
      · rw [if_neg (by linarith), if_pos hneg, (hf e.1).1, hfix e.1]
        rfl
      · rw [if_neg (by linarith), if_neg (by linarith), hzero, zero_mul]
      · rw [if_pos hpos, (hf e.1).2]
        rfl
    have hdot : rowDot (e :: t) pv.ubs =
        e.2 * vecAt pv.ubs e.1 + rowDot t pv.ubs := by
      unfold rowDot stableSum
      simp
    constructor
    · show optAdd (entMinContrib pv e) (rowMinAct pv t) = _
      rw [hmin, ih.1, hdot]
      rfl
    · show optAdd (entMaxContrib pv e) (rowMaxAct pv t) = _
      rw [hmax, ih.2, hdot]
      rfl

theorem detection_to_satisfaction (n : Num) (pv : PView)
    (hf : flagsFin pv) (hfix : ∀ i, vecAt pv.ubs i = vecAt pv.lbs i)
    (hd : detectionPass n pv) :
    baseRowsSatisfied n pv.base pv.ubs := by
  intro r hr hred
  have hv := hd r hr hred
  obtain ⟨hmin, hmax⟩ := rowActs_fixed n pv hf hfix r.ents
  unfold rowViolatedB at hv
  rw [hmin, hmax] at hv
  simp only [Bool.or_eq_false_iff, Bool.and_eq_false_iff] at hv
  obtain ⟨h1, h2⟩ := hv
  constructor
  · rcases h2 with h | h
    · left
      simpa using h
    · right
      have := of_decide_eq_false h
      linarith [not_lt.mp this]
  · rcases h1 with h | h
    · left
      simpa using h
    · right
      have := of_decide_eq_false h
      linarith [not_lt.mp this]

theorem completeAndReport_spec (n : Num) (cont : List ℚ) (pv : PView)
    (ret : Bool) (res : List ℚ) (fin : PView)
    (h : completeAndReport n cont pv = some (ret, some res, fin)) :
    fixRemainingLoop n cont (List.range cont.length) pv = some fin ∧
      createSolution n fin = some res ∧ ret = fin.infeasible := by
  unfold completeAndReport at h
  cases hE : fixRemainingLoop n cont (List.range cont.length) pv with
  | none => rw [hE] at h; simp at h
  | some pv5 =>
    rw [hE] at h
    simp only [Option.bind_eq_bind, Option.some_bind] at h
    cases hC : createSolution n pv5 with
    | none => rw [hC] at h; simp at h
    | some r =>
      rw [hC] at h
      simp only [Option.bind_eq_bind, Option.some_bind, Option.some.injEq,
        Prod.mk.injEq] at h
      obtain ⟨h1, h2, h3⟩ := h
      subst h3
      rw [h2] at hC
      exact ⟨rfl, hC, h1.symm⟩

theorem fixAndPropagate_false_spec (n : Num) (cont : List ℚ)
    (strat : Strategy) (pv0 : PView) (stop : Bool) (dfuel bfuel : ℕ)
    (ret : Bool) (res : List ℚ) (fin : PView)
    (h : fixAndPropagate n cont strat pv0 false stop dfuel bfuel =
      some (ret, some res, fin)) :
    ∃ pv1, diveLoop n strat cont stop dfuel pv0.reset = some pv1 ∧
      completeAndReport n cont pv1 = some (ret, some res, fin) := by
  unfold fixAndPropagate at h
  rw [if_neg (by simp)] at h
  cases hE : diveLoop n strat cont stop dfuel pv0.reset with
  | none => rw [hE] at h; simp at h
  | some pv1 =>
    rw [hE] at h
    simp only [Option.bind_eq_bind, Option.some_bind] at h
    split at h
    · simp at h
    · exact ⟨pv1, rfl, h⟩

theorem all_false_flagAt (l : List Bool) (hall : ∀ b ∈ l, b = false)
    (j : ℕ) : flagAt l j = false := by
  unfold flagAt
  by_cases hj : j < l.length
  · rw [List.getD_eq_getElem _ _ hj]
    exact hall _ (List.getElem_mem _)
  · rw [List.getD_eq_default _ _ (by omega)]

/-- The invariant surviving the backtracking path: the unguarded flip of
fix_and_propagate's backtracking branch can leave the base box, so only the
base problem, the cleared infinity flags, the bound-array lengths and the
detection guarantee are preserved (not the nesting of the view's bounds in
the base bounds). -/
def cInv (n : Num) (bp : BaseProblem) (pv : PView) : Prop :=
  pv.base = bp ∧ flagsFin pv ∧ pv.lbs.length = bp.lbs.length ∧
    pv.ubs.length = bp.ubs.length ∧ gInv n pv

theorem reset_cInv (n : Num) (bp : BaseProblem) (pv : PView)
    (hbase : pv.base = bp) (hlfin : ∀ b ∈ bp.lbInf, b = false)
    (hufin : ∀ b ∈ bp.ubInf, b = false) : cInv n bp pv.reset := by
  refine ⟨hbase, ?_, ?_, ?_, fun _ => Or.inl rfl⟩
  · intro j
    show flagAt pv.base.lbInf j = false ∧ flagAt pv.base.ubInf j = false
    rw [hbase]
    exact ⟨all_false_flagAt _ hlfin j, all_false_flagAt _ hufin j⟩
  · show pv.base.lbs.length = bp.lbs.length
    rw [hbase]
  · show pv.base.ubs.length = bp.ubs.length
    rw [hbase]

theorem setStep_cInv (n : Num) (bp : BaseProblem) (pv : PView) (c : ℕ)
    (v : ℚ) (hc : cInv n bp pv) :
    cInv n bp (performProbingStep n (pv.setProbingColumn c v)).2 := by
  obtain ⟨hbase, hf, hl, hu, _⟩ := hc
  refine ⟨?_, ?_, ?_, ?_, performProbingStep_gInv n _⟩
  · rw [performProbingStep_base]
    show pv.base = bp
    exact hbase
  · intro j
    constructor
    · rw [flagAt, performProbingStep_lbInf]
      show (pv.lbInf.set c false).getD j false = false
      exact flagAt_set_false _ c j (hf j).1
    · rw [flagAt, performProbingStep_ubInf]
      show (pv.ubInf.set c false).getD j false = false
      exact flagAt_set_false _ c j (hf j).2
  · rw [performProbingStep_lbs]
    show (pv.lbs.set c v).length = bp.lbs.length
    rw [List.length_set]
    exact hl
  · rw [performProbingStep_ubs]
    show (pv.ubs.set c v).length = bp.ubs.length
    rw [List.length_set]
    exact hu

theorem diveLoop_cInv (n : Num) (bp : BaseProblem) (strat : Strategy)
    (cont : List ℚ) (stop : Bool) :
    ∀ fuel pv pv1, cInv n bp pv →
      diveLoop n strat cont stop fuel pv = some pv1 → cInv n bp pv1 := by
  intro fuel
  induction fuel with
  | zero => intro pv pv1 _ h; simp [diveLoop] at h
  | succ k ih =>
    intro pv pv1 hc h
    simp only [diveLoop] at h
    match hs : strat cont pv with
    | none =>
      rw [hs] at h
      simp only [Option.some.injEq] at h
      subst h
      exact hc
    | some (c, v) =>
      rw [hs] at h
      dsimp only [] at h
      split at h
      · have hc2 := setStep_cInv n bp pv c v hc
        split at h
        · simp only [Option.some.injEq] at h
          subst h
          exact hc2
        · exact ih _ _ hc2 h
      · simp at h

theorem replayFixings_cInv (n : Num) (bp : BaseProblem) :
    ∀ L pv, cInv n bp pv → cInv n bp (replayFixings n L pv) := by
  intro L
  induction L with
  | nil => intro pv hc; exact hc
  | cons e rest ih =>
    intro pv hc
    obtain ⟨c, v⟩ := e
    show cInv n bp
      (replayFixings n rest (performProbingStep n (pv.setProbingColumn c v)).2)
    exact ih _ (setStep_cInv n bp pv c v hc)

theorem fixRemainingLoop_cInv (n : Num) (bp : BaseProblem) (cont : List ℚ) :
    ∀ L pv pv1, cInv n bp pv →
      fixRemainingLoop n cont L pv = some pv1 → cInv n bp pv1 := by
  intro L
  induction L with
  | nil =>
    intro pv pv1 hc h
    simp only [fixRemainingLoop, Option.some.injEq] at h
    subst h
    exact hc
  | cons i rest ih =>
    intro pv pv1 hc h
    simp only [fixRemainingLoop] at h
    split at h
    · exact ih _ _ hc h
    · match hv : fixRemainingValue n cont pv i with
      | none => rw [hv] at h; simp at h
      | some v =>
        rw [hv] at h
        exact ih _ _ (setStep_cInv n bp pv i v hc) h

/-- The row half of the feasibility guarantee, from the completion tail
alone: it needs only the weak invariant, so it serves both the plain dive
and the backtracking exit. -/
theorem completion_rows (n : Num) (bp : BaseProblem) (cont : List ℚ)
    (pv1 : PView) (res : List ℚ) (fin : PView) (heps : n.eps = 0)
    (hlen : bp.lbs.length = bp.ubs.length) (hc : cInv n bp pv1)
    (hcomp : completeAndReport n cont pv1 = some (false, some res, fin))
    (hfix : fin.fixings ≠ []) : baseRowsSatisfied n bp res := by
  obtain ⟨hfixloop, hcreate, hret⟩ :=
    completeAndReport_spec n cont pv1 false res fin hcomp
  obtain ⟨hbasef, hff, hl, hu, hgf⟩ :=
    fixRemainingLoop_cInv n bp cont (List.range cont.length) pv1 fin hc
      hfixloop
  have hdet : detectionPass n fin := by
    rcases hgf hret.symm with h | h
    · exact absurd h hfix
    · exact h
  obtain ⟨hres, hall⟩ := createSolution_spec n fin res hcreate
  have hlen2 : fin.lbs.length = fin.ubs.length := by omega
  have hfixp := view_fixed_pointwise n fin heps hlen2 hall
  subst hres
  have := detection_to_satisfaction n fin hff hfixp hdet
  rwa [hbasef] at this

theorem fnpBacktrackLoop_spec (n : Num) (bp : BaseProblem)
    (strat : Strategy) (cont : List ℚ) (stop : Bool) (dfuel : ℕ)
    (hlfin : ∀ b ∈ bp.lbInf, b = false)
    (hufin : ∀ b ∈ bp.ubInf, b = false) :
    ∀ bfuel pv ret res fin, cInv n bp pv →
      fnpBacktrackLoop n strat cont stop dfuel bfuel pv =
        some (ret, some res, fin) →
      ∃ pv1, cInv n bp pv1 ∧
        completeAndReport n cont pv1 = some (ret, some res, fin) := by
  intro bfuel
  induction bfuel with
  | zero => intro pv ret res fin _ h; simp [fnpBacktrackLoop] at h
  | succ k ih =>
    intro pv ret res fin hc h
    simp only [fnpBacktrackLoop] at h
    cases hE : diveLoop n strat cont true dfuel pv with
    | none => rw [hE] at h; simp at h
    | some pv1 =>
      rw [hE] at h
      simp only [Option.bind_eq_bind, Option.some_bind] at h
      have hc1 : cInv n bp pv1 :=
        diveLoop_cInv n bp strat cont true dfuel pv pv1 hc hE
      split at h
      · cases hL : pv1.fixings.getLast? with
        | none => rw [hL] at h; simp at h
        | some last =>
          rw [hL] at h
          dsimp only [] at h
          cases hM : modifyValueDueToBacktrack n last.2
              (vecAt cont last.1) with
          | none => rw [hM] at h; simp at h
          | some flip =>
            rw [hM] at h
            dsimp only [] at h
            have hc3 : cInv n bp (performProbingStep n
                ((replayFixings n pv1.fixings.dropLast
                  pv1.reset).setProbingColumn last.1 flip)).2 :=
              setStep_cInv n bp _ last.1 flip
                (replayFixings_cInv n bp _ _
                  (reset_cInv n bp pv1 hc1.1 hlfin hufin))
            split at h
            · split at h
              · simp at h
              · cases hE4 : diveLoop n strat cont false dfuel
                    (performProbingStep n ((replayFixings n
                      pv1.fixings.dropLast pv1.reset).setProbingColumn
                        last.1 flip)).2 with
                | none => rw [hE4] at h; simp at h
                | some pv4 =>
                  rw [hE4] at h
                  simp only [Option.bind_eq_bind, Option.some_bind] at h
                  exact ⟨pv4,
                    diveLoop_cInv n bp strat cont false dfuel _ pv4 hc3 hE4,
                    h⟩
            · exact ih _ _ _ _ hc3 h
      · exact ⟨pv1, hc1, h⟩

/-- C1, amended claim: on a base problem all of whose columns have finite
bounds with lb at most ub, under an exact comparison epsilon and a
non-negative feasibility tolerance, if fix_and_propagate (either mode)
completes without assertion failure, returns false (feasible) with a
written result, and at least one probing fixing was issued, then the
result satisfies every non-redundant row's side constraints; without
backtracking it additionally satisfies every column's base bounds (the
backtracking flip is applied without a bounds check, so the bound half
fails in that mode). -/
theorem fix_and_propagate_feasible (n : Num) (heps : n.eps = 0)
    (hft : 0 ≤ n.feastol) (cont : List ℚ) (strat : Strategy) (pv0 : PView)
    (bt : Bool)
    (hwf : ∀ j, vecAt pv0.base.lbs j ≤ vecAt pv0.base.ubs j)
    (hlen : pv0.base.lbs.length = pv0.base.ubs.length)
    (hlfin : ∀ b ∈ pv0.base.lbInf, b = false)
    (hufin : ∀ b ∈ pv0.base.ubInf, b = false)
    (stop : Bool) (dfuel bfuel : ℕ) (res : List ℚ) (fin : PView)
    (hrun : fixAndPropagate n cont strat pv0 bt stop dfuel bfuel =
      some (false, some res, fin))
    (hfix : fin.fixings ≠ []) :
    baseRowsSatisfied n pv0.base res ∧
      (bt = false → baseBoundsSatisfied n pv0.base res) := by
  have hC0 : cInv n pv0.base pv0.reset :=
    reset_cInv n pv0.base pv0 rfl hlfin hufin
  cases bt with
  | true =>
    unfold fixAndPropagate at hrun
    rw [if_pos rfl] at hrun
    obtain ⟨pv1, hc1, hcomp⟩ :=
      fnpBacktrackLoop_spec n pv0.base strat cont stop dfuel hlfin hufin
        bfuel pv0.reset false res fin hC0 hrun
    refine ⟨completion_rows n pv0.base cont pv1 res fin heps hlen hc1
      hcomp hfix, ?_⟩
    intro hcontra
    exact absurd hcontra (by simp)
  | false =>
    obtain ⟨pv1, hdive, hcomp⟩ :=
      fixAndPropagate_false_spec n cont strat pv0 stop dfuel bfuel false res
        fin hrun
    have hc1 : cInv n pv0.base pv1 :=
      diveLoop_cInv n pv0.base strat cont stop dfuel pv0.reset pv1 hC0 hdive
    refine ⟨completion_rows n pv0.base cont pv1 res fin heps hlen hc1
      hcomp hfix, fun _ => ?_⟩
    obtain ⟨hfixloop, hcreate, hret⟩ :=
      completeAndReport_spec n cont pv1 false res fin hcomp
    have hD0 : dInv n pv0.base pv0.reset := by
      refine ⟨rfl, ?_, ⟨rfl, rfl, hlen, ?_⟩, fun _ => Or.inl rfl⟩
      · intro j
        exact ⟨all_false_flagAt _ hlfin j, all_false_flagAt _ hufin j⟩
      · intro j
        exact ⟨le_refl _, le_refl _, hwf j⟩
    have hD1 := diveLoop_dInv n pv0.base strat cont stop heps dfuel
      pv0.reset pv1 hD0 hdive
    have hDf := fixRemainingLoop_dInv n pv0.base cont heps
      (List.range cont.length) pv1 fin hD1 hfixloop
    obtain ⟨hbasef, hff, hwf2, hgf⟩ := hDf
    obtain ⟨hres, hall⟩ := createSolution_spec n fin res hcreate
    have hfixp := view_fixed_pointwise n fin heps hwf2.2.2.1 hall
    subst hres
    intro j hj
    have hjb := hwf2.2.2.2 j
    rw [hbasef] at hjb
    constructor
    · intro _
      have h1 : vecAt pv0.base.lbs j ≤ vecAt fin.lbs j := hjb.1
      rw [← hfixp j] at h1
      linarith
    · intro _
      have h2 : vecAt fin.ubs j ≤ vecAt pv0.base.ubs j := hjb.2.1
      linarith

/-! ## C1: concrete instances -/

/-- A kernel with exact comparisons (eps 0) and the default feasibility
tolerance. -/
def exactNum : Num := ⟨0, tol⟩

/-- A strategy that issues exactly one fixing, of column c to value v, and
then reports the invalid fixing. -/
def fixOnceStrat (c : ℕ) (v : ℚ) : Strategy :=
  fun _ pv => if pv.fixings.isEmpty then some (c, v) else none

/-- One integral column fixed to 0 by its bounds and one non-redundant row
requiring x0 >= 1: the base problem of counterexample part (a). -/
def bpA : BaseProblem :=
  ⟨[0], [⟨[(0, 1)], 1, 0, false, true, false⟩], [0], [0], [false], [false],
    [true]⟩

/-- The final view of counterexample part (a): the untouched reset view. -/
def finA : PView := ⟨bpA, [0], [0], [false], [false], [], false⟩

/-- One integral column with bounds [1, 2] and the non-redundant row
x0 <= 0: the base problem of counterexample part (b), infeasible at every
in-box fixing, so backtracking flips the first fixing below the box. -/
def bpB : BaseProblem :=
  ⟨[0], [⟨[(0, 1)], 0, 0, true, false, false⟩], [1], [2], [false], [false],
    [true]⟩

/-- The final view of counterexample part (b): the backtracking flip set
column 0 to 0, below the base lower bound 1. -/
def finB : PView := ⟨bpB, [0], [0], [false], [false], [(0, 0)], false⟩

/-- Column 1 carries an infinite lower-bound flag over equal stored bounds
0, and the non-redundant row x1 <= -1; column 0 is binary and gets fixed:
the base problem of counterexample part (c). -/
def bpC : BaseProblem :=
  ⟨[0, 0], [⟨[(1, 1)], 0, -1, true, false, false⟩], [0, 0], [1, 0],
    [false, true], [false, false], [true, false]⟩

/-- The final view of counterexample part (c). -/
def finC : PView :=
  ⟨bpC, [1, 0], [1, 0], [false, true], [false, false], [(0, 1)], false⟩

/-- Column 0 has the kernel-equal but unequal bounds [0, 1/1000000] and
feeds the non-redundant row 2000000 x0 <= 0; column 1 is binary and gets
fixed: the base problem of counterexample part (d). -/
def bpD : BaseProblem :=
  ⟨[0, 0], [⟨[(0, 2000000)], 0, 0, true, false, false⟩], [0, 0],
    [1 / 1000000, 1], [false, false], [false, false], [false, true]⟩

/-- The final view of counterexample part (d). -/
def finD : PView :=
  ⟨bpD, [0, 1], [1 / 1000000, 1], [false, false], [false, false], [(1, 1)],
    false⟩

/-- The run of counterexample part (a): no fixing, propagation never runs,
the untouched view completes feasibly. -/
theorem bpA_run :
    fixAndPropagate exactNum [0] (fun _ _ => none) (mkView bpA) false false
      3 3 = some (false, some [0], finA) := by
  norm_num [fixAndPropagate, mkView, PView.reset, bpA, diveLoop,
    completeAndReport, fixRemainingLoop, createSolution, vecAt, flagAt,
    Num.isEq, exactNum, tol, List.range_succ, Option.bind_eq_bind,
    Option.some_bind, finA]

/-- The view of part (b) after its reset. -/
def pvB0 : PView := ⟨bpB, [1], [2], [false], [false], [], false⟩

/-- The view of part (b) after the first dive: column 0 fixed to 1, the
row x0 <= 0 violated, the infeasible flag latched. -/
def pvB1 : PView := ⟨bpB, [1], [1], [false], [false], [(0, 1)], true⟩

theorem bpB_dive1 :
    diveLoop exactNum (fixOnceStrat 0 1) [1 / 2] true 3 pvB0 =
      some pvB1 := by
  norm_num [diveLoop, fixOnceStrat, pvB0, pvB1, bpB, PView.isWithinBounds,
    PView.setProbingColumn, performProbingStep, PView.propagateDomains,
    rowViolatedB, rowMinAct, rowMaxAct, entMinContrib, entMaxContrib,
    optAdd, vecAt, flagAt, Num.isGE, Num.isLE, exactNum, tol]

theorem bpB_flip :
    modifyValueDueToBacktrack ⟨0, 1 / 1000000⟩ 1 (1 / 2) = some 0 := by
  norm_num [modifyValueDueToBacktrack, Num.isGE, Num.isLE, Num.isEq,
    Num.feasFloor]

theorem bpB_dive2 :
    diveLoop exactNum (fixOnceStrat 0 1) [1 / 2] true 3 finB =
      some finB := by
  norm_num [diveLoop, fixOnceStrat, finB]

theorem bpB_complete :
    completeAndReport exactNum [1 / 2] finB =
      some (false, some [0], finB) := by
  norm_num [completeAndReport, finB, bpB, fixRemainingLoop, createSolution,
    Num.isEq, vecAt, exactNum, tol, List.range_succ, Option.bind_eq_bind,
    Option.some_bind]

/-- The run of counterexample part (b): the first dive is infeasible, the
backtracking flip sets column 0 to 0 below the base lower bound 1 with no
bounds check, and the run then completes feasibly. -/
theorem bpB_run :
    fixAndPropagate exactNum [1 / 2] (fixOnceStrat 0 1) (mkView bpB) true
      false 3 3 = some (false, some [0], finB) := by
  show fnpBacktrackLoop exactNum (fixOnceStrat 0 1) [1 / 2] false 3 3 pvB0 =
    some (false, some [0], finB)
  have hstep : fnpBacktrackLoop exactNum (fixOnceStrat 0 1) [1 / 2] false 3
      3 pvB0 = fnpBacktrackLoop exactNum (fixOnceStrat 0 1) [1 / 2] false 3
      2 finB := by
    rw [fnpBacktrackLoop.eq_def]
    dsimp only []
    rw [bpB_dive1]
    simp only [Option.bind_eq_bind, Option.some_bind]
    norm_num [pvB1, bpB, performProbingStep, PView.reset,
      PView.setProbingColumn, PView.propagateDomains, replayFixings,
      rowViolatedB, rowMinAct, rowMaxAct, entMinContrib, entMaxContrib,
      optAdd, vecAt, flagAt, Num.isEq, exactNum, tol]
    rw [bpB_flip]
    dsimp only []
    norm_num [finB, bpB]
  have hexit : fnpBacktrackLoop exactNum (fixOnceStrat 0 1) [1 / 2] false 3
      2 finB = some (false, some [0], finB) := by
    rw [fnpBacktrackLoop.eq_def]
    dsimp only []
    rw [bpB_dive2]
    simp only [Option.bind_eq_bind, Option.some_bind,
      show finB.infeasible = false from rfl, Bool.false_eq_true, if_false]
    exact bpB_complete
  exact hstep.trans hexit

theorem bpC_dive :
    diveLoop exactNum (fixOnceStrat 0 1) [1, 0] false 3 (mkView bpC).reset =
      some finC := by
  norm_num [diveLoop, fixOnceStrat, mkView, PView.reset, bpC,
    PView.isWithinBounds, PView.setProbingColumn, performProbingStep,
    PView.propagateDomains, rowViolatedB, rowMaxAct, rowMinAct,
    entMaxContrib, entMinContrib, optAdd, vecAt, flagAt, Num.isGE,
    Num.isLE, exactNum, tol, finC, abs_le]
  rw [show ([false, true] : List Bool)[1] = true from rfl]
  norm_num

theorem bpC_complete :
    completeAndReport exactNum [1, 0] finC =
      some (false, some [1, 0], finC) := by
  norm_num [completeAndReport, finC, bpC, fixRemainingLoop, createSolution,
    Num.isEq, vecAt, exactNum, tol, List.range_succ, Option.bind_eq_bind,
    Option.some_bind]

/-- The run of counterexample part (c): column 0 is fixed to 1; detection
is blind on the row x1 <= -1 because column 1 carries an infinite
lower-bound flag, and the run completes feasibly. -/
theorem bpC_run :
    fixAndPropagate exactNum [1, 0] (fixOnceStrat 0 1) (mkView bpC) false
      false 3 3 = some (false, some [1, 0], finC) := by
  unfold fixAndPropagate
  rw [if_neg (by simp)]
  rw [bpC_dive]
  simp only [Option.bind_eq_bind, Option.some_bind]
  rw [if_neg (by simp)]
  exact bpC_complete

theorem bpD_dive :
    diveLoop stdNum (fixOnceStrat 1 1) [0, 1] false 3 (mkView bpD).reset =
      some finD := by
  norm_num [diveLoop, fixOnceStrat, mkView, PView.reset, bpD,
    PView.isWithinBounds, PView.setProbingColumn, performProbingStep,
    PView.propagateDomains, rowViolatedB, rowMaxAct, rowMinAct,
    entMaxContrib, entMinContrib, optAdd, vecAt, flagAt, Num.isGE,
    Num.isLE, stdNum, tol, finD, abs_le]
  refine ⟨⟨Or.inr (by show (0 : ℚ) ≤ 1000001 / 1000000; norm_num),
    Or.inr (by show (1 : ℚ) ≤ 1 + 1 / 1000000; norm_num)⟩, by rfl, by rfl,
    by rfl⟩

theorem bpD_fixrem :
    fixRemainingLoop stdNum [0, 1] (List.range 2) finD = some finD := by
  rw [show List.range 2 = [0, 1] from rfl]
  rw [fixRemainingLoop.eq_def]
  dsimp only []
  rw [if_pos (show stdNum.isEq (vecAt finD.ubs 0) (vecAt finD.lbs 0) from by
    norm_num [finD, bpD, vecAt, Num.isEq, stdNum, tol, abs_le])]
  rw [fixRemainingLoop.eq_def]
  dsimp only []
  rw [if_pos (show stdNum.isEq (vecAt finD.ubs 1) (vecAt finD.lbs 1) from by
    norm_num [finD, bpD, vecAt, Num.isEq, stdNum, tol, abs_le])]
  rw [fixRemainingLoop.eq_def]

theorem bpD_create :
    createSolution stdNum finD = some [1 / 1000000, 1] := by
  unfold createSolution
  rw [if_pos]
  · rfl
  · norm_num [finD, bpD, vecAt, Num.isEq, stdNum, tol, abs_le,
      List.range_succ]

theorem bpD_complete :
    completeAndReport stdNum [0, 1] finD =
      some (false, some [1 / 1000000, 1], finD) := by
  unfold completeAndReport
  rw [show ([0, 1] : List ℚ).length = 2 from rfl, bpD_fixrem]
  simp only [Option.bind_eq_bind, Option.some_bind]
  rw [bpD_create]
  simp only [Option.bind_eq_bind, Option.some_bind]
  rfl

/-- The run of counterexample part (d): column 1 is fixed to 1; column 0
keeps its kernel-equal bounds [0, 1/1000000], is skipped by the remaining
fixes, and the result takes its upper bound. -/
theorem bpD_run :
    fixAndPropagate stdNum [0, 1] (fixOnceStrat 1 1) (mkView bpD) false
      false 3 3 = some (false, some [1 / 1000000, 1], finD) := by
  unfold fixAndPropagate
  rw [if_neg (by simp)]
  rw [bpD_dive]
  simp only [Option.bind_eq_bind, Option.some_bind]
  rw [if_neg (by simp)]
  exact bpD_complete

/-- C1, counterexample, four parts refuting the claim as stated and forcing
each hypothesis of the amended theorem.  (a) With a strategy that never
fixes anything, propagation never runs: the run returns false yet the row
x0 >= 1 is violated at the result (forces the issued-fixing hypothesis).
(b) With backtracking, the flip of the last fixing is applied without a
bounds check: the run returns false yet the result 0 lies below the base
lower bound 1 (restricts the bound half to the no-backtracking mode).
(c) With an infinite lower-bound flag over kernel-equal stored bounds,
activity-based detection is blind on that row: the run returns false yet
x1 <= -1 is violated (forces the all-finite-bounds hypothesis).  (d) With
the tolerance eps = 1/1000000, a column whose bounds are kernel-equal but
unequal is never fixed and the result takes its upper bound: the run
returns false yet 2000000 x0 <= 0 is violated by 2 (forces the exact
comparison epsilon). -/
theorem fix_and_propagate_counterexample :
    (fixAndPropagate exactNum [0] (fun _ _ => none) (mkView bpA) false false
        3 3 = some (false, some [0], finA) ∧ finA.fixings = [] ∧
      ¬ baseRowsSatisfied exactNum bpA [0]) ∧
    (fixAndPropagate exactNum [1 / 2] (fixOnceStrat 0 1) (mkView bpB) true
        false 3 3 = some (false, some [0], finB) ∧ finB.fixings ≠ [] ∧
      ¬ baseBoundsSatisfied exactNum bpB [0]) ∧
    (fixAndPropagate exactNum [1, 0] (fixOnceStrat 0 1) (mkView bpC) false
        false 3 3 = some (false, some [1, 0], finC) ∧ finC.fixings ≠ [] ∧
      ¬ baseRowsSatisfied exactNum bpC [1, 0]) ∧
    (fixAndPropagate stdNum [0, 1] (fixOnceStrat 1 1) (mkView bpD) false
        false 3 3 = some (false, some [1 / 1000000, 1], finD) ∧
      finD.fixings ≠ [] ∧
      ¬ baseRowsSatisfied stdNum bpD [1 / 1000000, 1]) := by
  refine ⟨⟨bpA_run, by simp [finA], ?_⟩, ⟨bpB_run, by simp [finB], ?_⟩,
    ⟨bpC_run, by simp [finC], ?_⟩, ⟨bpD_run, by simp [finD], ?_⟩⟩
  · intro h
    unfold baseRowsSatisfied at h
    have hrow := h ⟨[(0, 1)], 1, 0, false, true, false⟩ (by simp [bpA]) rfl
    unfold rowSatisfiedAt at hrow
    rcases hrow.1 with h1 | h1
    · simp at h1
    · norm_num [rowDot, stableSum, vecAt, exactNum, tol] at h1
  · intro h
    have hb := h 0 (by simp [bpB])
    rw [show flagAt bpB.lbInf 0 = false by rfl] at hb
    have h1 := hb.1 rfl
    norm_num [bpB, vecAt, exactNum, tol] at h1
  · intro h
    unfold baseRowsSatisfied at h
    have hrow := h ⟨[(1, 1)], 0, -1, true, false, false⟩ (by simp [bpC]) rfl
    unfold rowSatisfiedAt at hrow
    rcases hrow.2 with h1 | h1
    · simp at h1
    · rw [show rowDot [(1, 1)] [1, 0] = 0 by
        norm_num [rowDot, stableSum, vecAt]
        rfl] at h1
      norm_num [exactNum, tol] at h1
  · intro h
    unfold baseRowsSatisfied at h
    have hrow := h ⟨[(0, 2000000)], 0, 0, true, false, false⟩
      (by simp [bpD]) rfl
    unfold rowSatisfiedAt at hrow
    rcases hrow.2 with h1 | h1
    · simp at h1
    · rw [show rowDot [(0, 2000000)] [1 / 1000000, 1] = 2 by
        norm_num [rowDot, stableSum, vecAt]] at h1
      norm_num [stdNum, tol] at h1


/-- One integral column with bounds [0, 2] and the non-redundant row
x0 >= 1: the base problem of the C1 witness run. -/
def bpW : BaseProblem :=
  ⟨[0], [⟨[(0, 1)], 1, 0, false, true, false⟩], [0], [2], [false], [false],
    [true]⟩

/-- The final view of the C1 witness run. -/
def finW : PView := ⟨bpW, [1], [1], [false], [false], [(0, 1)], false⟩

set_option maxHeartbeats 800000 in
/-- Witness for fix_and_propagate_feasible: the strategy fixing column 0
to 1 completes feasibly on bpW without backtracking, with result (1) and
one fixing on the trail, and the result satisfies the rows and bounds of
bpW. -/
theorem fix_and_propagate_feasible_witness :
    (exactNum.eps = 0 ∧ 0 ≤ exactNum.feastol ∧
      fixAndPropagate exactNum [1] (fixOnceStrat 0 1) (mkView bpW) false
        false 3 3 = some (false, some [1], finW) ∧ finW.fixings ≠ []) ∧
    (baseRowsSatisfied exactNum (mkView bpW).base [1] ∧
      ((false : Bool) = false →
        baseBoundsSatisfied exactNum (mkView bpW).base [1])) :=
  have hrun : fixAndPropagate exactNum [1] (fixOnceStrat 0 1) (mkView bpW)
      false false 3 3 = some (false, some [1], finW) := by
    norm_num [fixAndPropagate, mkView, PView.reset, bpW, diveLoop,
      fixOnceStrat, PView.isWithinBounds, PView.setProbingColumn,
      performProbingStep, PView.propagateDomains, rowViolatedB, rowMaxAct,
      rowMinAct, entMaxContrib, entMinContrib, optAdd, vecAt, flagAt,
      Num.isGE, Num.isLE, Num.isEq, exactNum, tol, completeAndReport,
      fixRemainingLoop, createSolution, List.range_succ,
      Option.bind_eq_bind, Option.some_bind, finW]
  have hfix : finW.fixings ≠ [] := by simp [finW]
  ⟨⟨rfl, by norm_num [exactNum, tol], hrun, hfix⟩,
    fix_and_propagate_feasible exactNum rfl (by norm_num [exactNum, tol])
      [1] (fixOnceStrat 0 1) (mkView bpW) false
      (by
        intro j
        rcases j with _ | j <;>
          norm_num [mkView, bpW, vecAt, List.getD_cons_zero,
            List.getD_cons_succ, List.getD_nil])
      rfl
      (by intro b hb; simpa [mkView, bpW] using hb)
      (by intro b hb; simpa [mkView, bpW] using hb)
      false 3 3 [1] finW hrun hfix⟩
